import Mathlib

/-!
Verification development for the project_chat conversational-memory engine.

The Python modules under brain_core are shallowly embedded here:
text is `List Char`, database tables are Lean lists, the local LLM and
the embedding service are oracles passed as explicit arguments, and the
fallible paths return `Except` or `Option` values.  Each definition is a
direct translation of the corresponding Python function; comments cite
the source file and line ranges.
-/

deriving instance DecidableEq for Except

namespace ProjectChat

/-- Text is modeled as a list of characters (Python `str`). -/
abbrev Str := List Char

/-- Shorthand for turning a Lean string literal into the model text type. -/
def lit (s : String) : Str := s.data

/-- The opening-brace character, written via its code point. -/
def lbrace : Char := '\x7b'

/-- The closing-brace character, written via its code point. -/
def rbrace : Char := '\x7d'

/-- The single-quote character. -/
def squote : Char := '\x27'

/-- Whitespace as recognized by Python `str.strip()` and the `re` class `\s`
(restricted to ASCII, which is all the source ever feeds it). -/
def isPySpace (c : Char) : Bool :=
  c = ' ' || c = '\t' || c = '\n' || c = '\r' || c = '\x0b' || c = '\x0c'

/-- Python `str.lstrip()`. -/
def pyLstrip (s : Str) : Str := s.dropWhile isPySpace

/-- Python `str.rstrip()`. -/
def pyRstrip (s : Str) : Str := (s.reverse.dropWhile isPySpace).reverse

/-- Python `str.strip()`. -/
def pyStrip (s : Str) : Str := pyRstrip (pyLstrip s)

/-- Python `str.strip(chars)`: remove the given characters from both ends. -/
def pyStripChars (cs : List Char) (s : Str) : Str :=
  ((s.dropWhile (cs.contains ·)).reverse.dropWhile (cs.contains ·)).reverse

/-- Python `str.lower()` (ASCII). -/
def lowerStr (s : Str) : Str := s.map Char.toLower

/-- Python `str.upper()` (ASCII). -/
def upperStr (s : Str) : Str := s.map Char.toUpper

/-- Python `str.startswith(pre)`. -/
def strStarts : Str → Str → Bool
  | [], _ => true
  | _ :: _, [] => false
  | p :: ps, c :: cs => p = c && strStarts ps cs

/-- Python `needle in hay` (substring containment; the empty needle is in
every string). -/
def strContains (hay needle : Str) : Bool :=
  match hay with
  | [] => needle.isEmpty
  | _ :: rest => strStarts needle hay || strContains rest needle

/-- Python `str.find(ch)` restricted to a single character, as an `Option`. -/
def pyFindChar (c : Char) : Str → Option Nat
  | [] => none
  | d :: rest =>
    if d = c then some 0 else (pyFindChar c rest).map (· + 1)

/-- First index at which `pat` occurs as a substring, if any
(Python `str.find(pat)` when the result is non-negative). -/
def findSub (pat : Str) : Str → Option Nat
  | [] => if pat.isEmpty then some 0 else none
  | c :: rest =>
    if strStarts pat (c :: rest) then some 0 else (findSub pat rest).map (· + 1)

/-- Python `str.split(sep)` for a one-character separator; the empty string
yields one empty field, matching Python. -/
def splitOnChar (sep : Char) : Str → List Str
  | [] => [[]]
  | c :: rest =>
    match splitOnChar sep rest with
    | [] => [[c]]
    | h :: t => if c = sep then [] :: h :: t else (c :: h) :: t

/-- Python `sep.flatten(parts)` for a one-character separator. -/
def joinChar (sep : Char) : List Str → Str
  | [] => []
  | [l] => l
  | l :: ls => l ++ sep :: joinChar sep ls

/-- Python `str.split()` with no argument: split on whitespace runs,
dropping empty fields. -/
def pySplitWs : Str → List Str
  | [] => []
  | c :: rest =>
    if isPySpace c then pySplitWs rest
    else
      match pySplitWs rest with
      | [] => [[c]]
      | h :: t =>
        match rest with
        | [] => [[c]]
        | d :: _ => if isPySpace d then [c] :: h :: t else (c :: h) :: t

/-- Python `s[:n]` truncation. -/
def pyTake (n : Nat) (s : Str) : Str := s.take n

/-- Decimal rendering of a natural number, used for f-string interpolation
of row counts. -/
def natStr (n : Nat) : Str := (toString n).data

/-! ## JSON values

Python `json.loads` produces dicts, lists, strings, numbers, booleans and
`None`; we embed those as a mutual inductive so that structural recursion
and induction stay simple.  Numbers keep their source lexeme. -/

mutual
inductive Json where
  | null
  | jtrue
  | jfalse
  | num (lex : Str)
  | str (s : Str)
  | arr (xs : JsonList)
  | obj (ms : JsonMembers)
deriving DecidableEq
inductive JsonList where
  | nil
  | cons (hd : Json) (tl : JsonList)
deriving DecidableEq
inductive JsonMembers where
  | nil
  | cons (k : Str) (v : Json) (tl : JsonMembers)
deriving DecidableEq
end

/-- Dict insertion: replace the value when the key is present (keeping its
position), append otherwise — Python dict semantics. -/
def JsonMembers.insert : JsonMembers → Str → Json → JsonMembers
  | .nil, k, v => .cons k v .nil
  | .cons k0 v0 tl, k, v =>
    if k0 = k then .cons k0 v tl else .cons k0 v0 (tl.insert k v)

/-- Dict lookup (keys are unique after `insert`-based construction). -/
def JsonMembers.get : JsonMembers → Str → Option Json
  | .nil, _ => none
  | .cons k0 v0 tl, k => if k0 = k then some v0 else tl.get k

/-- Python `d.get(k)` on a parsed-JSON dict; `none` on non-dicts (the source
never reaches that case). -/
def jGet (j : Json) (k : Str) : Option Json :=
  match j with
  | .obj ms => ms.get k
  | _ => none

/-- Python `k in d`. -/
def jHas (j : Json) (k : Str) : Bool := (jGet j k).isSome

/-- Python `d[k] = v`; identity on non-dicts (unreachable in the source). -/
def jSet (j : Json) (k : Str) (v : Json) : Json :=
  match j with
  | .obj ms => .obj (ms.insert k v)
  | _ => j

/-- Append at the end of a JSON list. -/
def JsonList.push : JsonList → Json → JsonList
  | .nil, v => .cons v .nil
  | .cons h t, v => .cons h (t.push v)

/-- Whether a number lexeme denotes zero (mantissa digits all `0`). -/
def numIsZero (lex : Str) : Bool :=
  ((lex.takeWhile (fun c => c ≠ 'e' && c ≠ 'E')).filter Char.isDigit).all (· = '0')

/-- Python truthiness of a parsed-JSON value. -/
def jTruthy : Json → Bool
  | .null => false
  | .jtrue => true
  | .jfalse => false
  | .num lex => !numIsZero lex
  | .str s => !s.isEmpty
  | .arr .nil => false
  | .arr (.cons _ _) => true
  | .obj .nil => false
  | .obj (.cons _ _ _) => true

mutual
/-- Python `str(x)` for a parsed-JSON value (containers fall back to repr). -/
def pyStr : Json → Str
  | .null => lit "None"
  | .jtrue => lit "True"
  | .jfalse => lit "False"
  | .num lex => lex
  | .str s => s
  | .arr xs => '[' :: pyReprList xs ++ [']']
  | .obj ms => lbrace :: pyReprMembers ms ++ [rbrace]
/-- Python `repr(x)` (strings get single quotes; escape corners ignored,
never reached by any claim). -/
def pyRepr : Json → Str
  | .str s => squote :: s ++ [squote]
  | .arr xs => '[' :: pyReprList xs ++ [']']
  | .obj ms => lbrace :: pyReprMembers ms ++ [rbrace]
  | j => pyStr j
def pyReprList : JsonList → Str
  | .nil => []
  | .cons h .nil => pyRepr h
  | .cons h t => pyRepr h ++ ',' :: ' ' :: pyReprList t
def pyReprMembers : JsonMembers → Str
  | .nil => []
  | .cons k v .nil => squote :: k ++ squote :: ':' :: ' ' :: pyRepr v
  | .cons k v t =>
    squote :: k ++ squote :: ':' :: ' ' :: pyRepr v ++ ',' :: ' ' :: pyReprMembers t
end

/-! ## A strict JSON reader (Python `json.loads`)

Recursive-descent with explicit fuel so that every definition is
structurally recursive and kernel-reducible.  Grammar per RFC 8259 /
CPython `json` (strict mode): no comments, no trailing commas, raw
control characters rejected inside strings. -/

/-- JSON insignificant whitespace. -/
def jsonWs (c : Char) : Bool := c = ' ' || c = '\t' || c = '\n' || c = '\r'

/-- Skip insignificant whitespace. -/
def skipJWs (s : Str) : Str := s.dropWhile jsonWs

/-- Hex digit value, via code points: 48-57 are the digits, 97-102 the
lowercase and 65-70 the uppercase hex letters. -/
def hexVal (c : Char) : Option Nat :=
  let n := c.toNat
  if 48 ≤ n && n ≤ 57 then some (n - 48)
  else if 97 ≤ n && n ≤ 102 then some (n - 87)
  else if 65 ≤ n && n ≤ 70 then some (n - 55)
  else none

/-- Simple (non-unicode) JSON string escapes. -/
def escChar (e : Char) : Option Char :=
  if e = '"' then some '"'
  else if e = '\\' then some '\\'
  else if e = '/' then some '/'
  else if e = 'b' then some '\x08'
  else if e = 'f' then some '\x0c'
  else if e = 'n' then some '\n'
  else if e = 'r' then some '\r'
  else if e = 't' then some '\t'
  else none

/-- Body of a JSON string after the opening quote; returns the decoded
characters and the remainder after the closing quote. -/
def parseStrBody : Str → Option (Str × Str)
  | [] => none
  | c :: rest =>
    if c = '"' then some ([], rest)
    else if c = '\\' then
      match rest with
      | [] => none
      | 'u' :: h1 :: h2 :: h3 :: h4 :: rest3 =>
        match hexVal h1, hexVal h2, hexVal h3, hexVal h4 with
        | some a, some b, some c3, some d =>
          match parseStrBody rest3 with
          | some (s, r2) => some (Char.ofNat (((a * 16 + b) * 16 + c3) * 16 + d) :: s, r2)
          | none => none
        | _, _, _, _ => none
      | e :: rest2 =>
        match escChar e with
        | some ch =>
          match parseStrBody rest2 with
          | some (s, r2) => some (ch :: s, r2)
          | none => none
        | none => none
    else if c.toNat < 32 then none
    else
      match parseStrBody rest with
      | some (s, r2) => some (c :: s, r2)
      | none => none

/-- One-or-more decimal digits. -/
def parseDigits : Str → Option (Str × Str)
  | [] => none
  | c :: rest =>
    if c.isDigit then
      match rest.span Char.isDigit with
      | (ds, r) => some (c :: ds, r)
    else none

/-- JSON number lexeme: `-? (0 | [1-9][0-9]*) (.[0-9]+)? ([eE][+-]?[0-9]+)?`. -/
def parseNumLex (cs : Str) : Option (Str × Str) :=
  let (sign, cs1) :=
    match cs with
    | '-' :: r => (['-'], r)
    | _ => (([] : Str), cs)
  match cs1 with
  | [] => none
  | c :: rest =>
    if c = '0' ∨ (c.isDigit ∧ c ≠ '0') then
      let (intPart, cs2) :=
        if c = '0' then (['0'], rest)
        else match rest.span Char.isDigit with
          | (ds, r) => (c :: ds, r)
      let (fracPart, cs3) :=
        match cs2 with
        | '.' :: r =>
          match parseDigits r with
          | some (ds, r2) => (('.' :: ds : Str), r2)
          | none => (([] : Str), cs2)
        | _ => (([] : Str), cs2)
      if fracPart.isEmpty ∧ cs2.head? = some '.' then none
      else
        let (expPart, cs4) :=
          match cs3 with
          | e :: r =>
            if e = 'e' ∨ e = 'E' then
              let (esign, r1) :=
                match r with
                | s :: r2 => if s = '+' ∨ s = '-' then (([s] : Str), r2) else (([] : Str), r)
                | [] => (([] : Str), r)
              match parseDigits r1 with
              | some (ds, r2) => ((e :: esign ++ ds : Str), r2)
              | none => (([] : Str), cs3)
            else (([] : Str), cs3)
          | [] => (([] : Str), cs3)
        some (sign ++ intPart ++ fracPart ++ expPart, cs4)
    else none

mutual
/-- Parse one JSON value; `cs` starts at a non-whitespace position. -/
def parseVal (fuel : Nat) (cs : Str) : Option (Json × Str) :=
  match fuel with
  | 0 => none
  | fuel + 1 =>
    match cs with
    | [] => none
    | c :: rest =>
      if c = '"' then (parseStrBody rest).map (fun p => (.str p.1, p.2))
      else if c = lbrace then parseObjBody fuel (skipJWs rest) true .nil
      else if c = '[' then parseArrBody fuel (skipJWs rest) true .nil
      else if strStarts (lit "true") cs then some (.jtrue, cs.drop 4)
      else if strStarts (lit "false") cs then some (.jfalse, cs.drop 5)
      else if strStarts (lit "null") cs then some (.null, cs.drop 4)
      else (parseNumLex cs).map (fun p => (.num p.1, p.2))
/-- Parse object members; `first` marks the position right after the
opening brace. -/
def parseObjBody (fuel : Nat) (cs : Str) (first : Bool) (acc : JsonMembers) :
    Option (Json × Str) :=
  match fuel with
  | 0 => none
  | fuel + 1 =>
    match cs with
    | [] => none
    | c :: rest =>
      if c = rbrace ∧ first then some (.obj acc, rest)
      else if c = '"' then
        match parseStrBody rest with
        | none => none
        | some (k, cs1) =>
          match skipJWs cs1 with
          | ':' :: cs2 =>
            match parseVal fuel (skipJWs cs2) with
            | none => none
            | some (v, cs3) =>
              let acc1 := acc.insert k v
              match skipJWs cs3 with
              | ',' :: cs4 => parseObjBody fuel (skipJWs cs4) false acc1
              | d :: cs4 => if d = rbrace then some (.obj acc1, cs4) else none
              | [] => none
          | _ => none
      else none
/-- Parse array items; `first` marks the position right after the
opening bracket. -/
def parseArrBody (fuel : Nat) (cs : Str) (first : Bool) (acc : JsonList) :
    Option (Json × Str) :=
  match fuel with
  | 0 => none
  | fuel + 1 =>
    match cs with
    | [] => none
    | c :: _ =>
      if c = ']' ∧ first then some (.arr acc, cs.drop 1)
      else
        match parseVal fuel cs with
        | none => none
        | some (v, cs1) =>
          let acc1 := acc.push v
          match skipJWs cs1 with
          | ',' :: cs2 => parseArrBody fuel (skipJWs cs2) false acc1
          | d :: cs2 => if d = ']' then some (.arr acc1, cs2) else none
          | [] => none
end

/-- Python `json.loads`: parse a complete document, allowing surrounding
whitespace, rejecting trailing garbage. -/
def jsonLoads (s : Str) : Option Json :=
  match parseVal (s.length + 1) (skipJWs s) with
  | some (v, rest) => if (skipJWs rest).isEmpty then some v else none
  | none => none

/-! ## Tolerant JSON extractor

Embeds `extract_json_from_text` (brain_core/conversation_indexer.py lines
39-191; the copy in context_builder.py lines 311-374 repeats the same
brace scan and comment stripper). -/

/-- First hit of `f` over a list. -/
def firstSome {α β : Type} (f : α → Option β) : List α → Option β
  | [] => none
  | a :: as =>
    match f a with
    | some b => some b
    | none => firstSome f as

/-- Candidate positions for the literal newline of `\s*\n` right after a
fence tag: newline indices inside the leading whitespace run, in the
backtracking order of the regex engine (longest `\s*` first). -/
def nlCandidates (cs : Str) : List Nat :=
  let w := (cs.takeWhile isPySpace).length
  ((List.range w).filter (fun j => cs.getD j ' ' = '\n')).reverse

/-- Match `\s*\n(.*?)\n``` ` (DOTALL) against `cs`, returning the lazy
group: shortest content followed by a newline and a closing fence. -/
def fenceBody (cs : Str) : Option Str :=
  firstSome
    (fun j =>
      match findSub (lit "\n```") (cs.drop (j + 1)) with
      | some m => some ((cs.drop (j + 1)).take m)
      | none => none)
    (nlCandidates cs)

/-- Strategy 1: `re.search(r"```json\s*\n(.*?)\n```", text, re.DOTALL)`,
leftmost match start first. -/
def searchFence1 : Str → Option Str
  | [] => none
  | c :: rest =>
    if strStarts (lit "```json") (c :: rest) then
      match fenceBody ((c :: rest).drop 7) with
      | some g => some g
      | none => searchFence1 rest
    else searchFence1 rest

/-- Strategy 2: `re.search(r"```[a-z]*\s*\n(.*?)\n```", text, re.DOTALL)`;
the greedy `[a-z]*` must take the whole letter run, since a shorter run
leaves a letter where `\s*\n` needs whitespace. -/
def searchFence2 : Str → Option Str
  | [] => none
  | c :: rest =>
    if strStarts (lit "```") (c :: rest) then
      let after := (c :: rest).drop 3
      match fenceBody (after.drop (after.takeWhile (fun ch => 'a' ≤ ch && ch ≤ 'z')).length) with
      | some g => some g
      | none => searchFence2 rest
    else searchFence2 rest

/-- Brace balancing loop of Strategy 4 (conversation_indexer.py lines
110-123): count every brace — including braces inside strings — and stop
at the brace where the count returns to zero.  `k` is the count before
the current character, `i` its index in the whole text. -/
def findClosingBrace : Str → Int → Nat → Option Nat
  | [], _, _ => none
  | c :: rest, k, i =>
    if c = lbrace then findClosingBrace rest (k + 1) (i + 1)
    else if c = rbrace then
      if k - 1 = 0 then some i else findClosingBrace rest (k - 1) (i + 1)
    else findClosingBrace rest k (i + 1)

/-- Inner `while i < len(line) - 1` loop that looks for `*/` on the same
line (conversation_indexer.py lines 176-180).  When the terminator is not
found before the second-to-last position, the loop stops there and the
final character of the line is handed back to the outer loop. -/
def skipBlock : Str → Str
  | [] => []
  | [c] => [c]
  | '*' :: '/' :: rest => rest
  | _ :: c2 :: rest => skipBlock (c2 :: rest)

/-- Per-character comment-stripping loop for one line (conversation_indexer.py
lines 135-188), with the string/escape state threaded through; returns the
kept characters and the state at end of line.  Fuel keeps the recursion
structural; `line.length` is always enough. -/
def cleanChars : Nat → Str → Bool → Bool → Str × Bool × Bool
  | 0, _, inS, esc => ([], inS, esc)
  | _ + 1, [], inS, esc => ([], inS, esc)
  | fuel + 1, c :: rest, inS, esc =>
    if esc then
      let r := cleanChars fuel rest inS false
      (c :: r.1, r.2)
    else if c = '\\' then
      let r := cleanChars fuel rest inS true
      (c :: r.1, r.2)
    else if c = '"' then
      let r := cleanChars fuel rest (!inS) esc
      (c :: r.1, r.2)
    else if inS then
      let r := cleanChars fuel rest inS esc
      (c :: r.1, r.2)
    else if c = '/' && rest.head? = some '/' then
      ([], inS, esc)
    else if c = '/' && rest.head? = some '*' then
      cleanChars fuel (skipBlock (rest.drop 1)) inS esc
    else
      let r := cleanChars fuel rest inS esc
      (c :: r.1, r.2)

/-- Process one line. -/
def cleanLine (line : Str) (inS esc : Bool) : Str × Bool × Bool :=
  cleanChars line.length line inS esc

/-- Outer per-line loop: right-strip each cleaned line, keep the non-empty
ones, and carry the string/escape state into the next line. -/
def cleanLinesLoop : List Str → Bool → Bool → List Str
  | [], _, _ => []
  | l :: rest, inS, esc =>
    let r := cleanLine l inS esc
    let cl := pyRstrip r.1
    let tail := cleanLinesLoop rest r.2.1 r.2.2
    if cl.isEmpty then tail else cl :: tail

/-- Comment removal applied to the extracted object (conversation_indexer.py
lines 128-191): split into lines, strip `//` and `/* */` comments outside
strings, drop blank lines, rejoin and strip. -/
def removeJsonComments (jsonText : Str) : Str :=
  pyStrip (joinChar '\n' (cleanLinesLoop (splitOnChar '\n' jsonText) false false))

/-- The tolerant extractor `extract_json_from_text` (conversation_indexer.py
lines 39-191). -/
def extract_json_from_text (input : Str) : Except Str Str :=
  let text0 := pyStrip input
  let original := text0
  let text1 :=
    match searchFence1 text0 with
    | some g => pyStrip g
    | none => text0
  let text2 :=
    if text1 = original then
      match searchFence2 text1 with
      | some g =>
        let pj := pyStrip g
        if strStarts [lbrace] pj || strStarts [('[' : Char)] pj then pj else text1
      | none => text1
    else text1
  let text3 :=
    if strStarts (lit "```") text2 then
      let lines := splitOnChar '\n' text2
      if lines.length > 2 then joinChar '\n' (lines.drop 1).dropLast else text2
    else text2
  let text4 :=
    if strStarts (lit "```json") text3 then
      let lines := splitOnChar '\n' text3
      if lines.length > 2 then joinChar '\n' (lines.drop 1).dropLast else text3
    else text3
  match pyFindChar lbrace text4 with
  | none =>
    match pyFindChar '[' text4 with
    | none => .error (lit "No JSON object found in response (no opening brace)")
    | some _ => .error (lit "No JSON object found in response (found array instead)")
  | some startIdx =>
    match findClosingBrace (text4.drop startIdx) 0 startIdx with
    | none => .error (lit "No complete JSON object found (unmatched braces)")
    | some endIdx =>
      .ok (removeJsonComments ((text4.drop startIdx).take (endIdx + 1 - startIdx)))

/-! ## Project-tag normalization and transcript building -/

/-- The closed project set plus `general` (conversation_indexer.py line 612). -/
def valid_projects : List Str :=
  [lit "THN", lit "DAAS", lit "FF", lit "700B", lit "general"]

/-- The four specific project tags. -/
def specific_projects : List Str := [lit "THN", lit "DAAS", lit "FF", lit "700B"]

/-- Embeds `normalize_project_tag` (brain_core/chat.py lines 18-22). -/
def normalize_project_tag (tag : Str) : Str :=
  let t := upperStr (pyStrip tag)
  if t = lit "THN" || t = lit "DAAS" || t = lit "FF" || t = lit "700B" then t
  else lit "general"

/-- Python `(tag or "")` for a nullable column value, then normalization. -/
def normalizeOptTag (tag : Option Str) : Str :=
  normalize_project_tag (tag.getD [])

/-- Embeds `build_transcript` (conversation_indexer.py lines 20-36):
each message rendered as `role: content`, newline-joined. -/
def build_transcript (messages : List (Str × Str)) : Str :=
  joinChar '\n' (messages.map (fun m => m.1 ++ ':' :: ' ' :: m.2))

/-! ## Markdown fallback reconstructor

Embeds `generate_json_from_markdown` (conversation_indexer.py lines
194-341).  Label detection is `re.search` of alternations whose weakest
branch is a bare `Label:` substring, so it reduces to case-insensitive
substring containment; labels like `Summary[^:]*:` additionally require a
colon somewhere after an occurrence. -/

/-- Case-insensitive containment of `pat` (already lowercase). -/
def lineHasLabel (pat : Str) (line : Str) : Bool :=
  strContains (lowerStr line) pat

/-- Occurrence of `pat` (lowercase) followed — after any non-colons — by a
colon, per patterns of the shape `Memory[^:]*:`. -/
def lineHasLabelColon (pat : Str) (line : Str) : Bool :=
  go (lowerStr line)
where
  go : Str → Bool
    | [] => false
    | c :: rest =>
      (strStarts pat (c :: rest) && ((c :: rest).drop pat.length).contains ':')
        || go rest

/-- Group of `re.search(r":\s*(.+)", line)`: text after the first colon
that has at least one following character, with leading whitespace eaten
greedily (backtracking leaves the last whitespace character when nothing
else follows). -/
def afterColonGroup (line : Str) : Option Str :=
  match pyFindChar ':' line with
  | none => none
  | some p =>
    let rem := line.drop (p + 1)
    if rem.isEmpty then none
    else
      let g := rem.dropWhile isPySpace
      if g.isEmpty then some [rem.getLastD ' '] else some g

/-- Python `.strip().strip("*").strip()` applied to an extracted group. -/
def cleanFieldValue (g : Str) : Str :=
  pyStrip (pyStripChars ['*'] (pyStrip g))

/-- Group of `re.search(r"\[([^\]]+)\]", line)`: content of the first
bracket pair with non-empty bracket-free content. -/
def bracketContent : Str → Option Str
  | [] => none
  | c :: rest =>
    if c = '[' then
      let content := rest.takeWhile (· ≠ ']')
      if !content.isEmpty && content.length < rest.length then some content
      else bracketContent rest
    else bracketContent rest

/-- Tag list cleanup: strip, unquote, then drop empties (lines 260-261). -/
def tagsFromBracket (content : Str) : List Str :=
  ((splitOnChar ',' content).map
      (fun t => pyStripChars [squote] (pyStripChars ['"'] (pyStrip t)))).filter
    (fun t => !t.isEmpty)

/-- Entity/topic list cleanup: drop blank items first, then strip and
unquote (lines 302, 307, 312, 321). -/
def entitiesFromBracket (content : Str) : List Str :=
  ((splitOnChar ',' content).filter (fun p => !(pyStrip p).isEmpty)).map
    (fun p => pyStripChars [squote] (pyStripChars ['"'] (pyStrip p)))

/-- Markdown header test `re.match(r"^\*\*|^\* |^#", line)`. -/
def headerLine (line : Str) : Bool :=
  strStarts (lit "**") line || strStarts (lit "* ") line || strStarts (lit "#") line

/-- Lines collected after the summary label until the next header; a later
line matching the summary label again contributes its colon group and does
not end the collection (the label check precedes the header check in the
source loop). -/
def summaryCont : List Str → List Str
  | [] => []
  | l :: rest =>
    if lineHasLabelColon (lit "summary") l then
      (match afterColonGroup l with
        | some g => [pyStrip g]
        | none => []) ++ summaryCont rest
    else if headerLine l then []
    else if (pyStrip l).isEmpty then summaryCont rest
    else pyStrip l :: summaryCont rest

/-- Summary lines: group on the label line, then continuation lines. -/
def summaryLines : List Str → List Str
  | [] => []
  | l :: rest =>
    if lineHasLabelColon (lit "summary") l then
      (match afterColonGroup l with
        | some g => [pyStrip g]
        | none => []) ++ summaryCont rest
    else summaryLines rest

/-- First part of `re.split(r"[.!?]\s+", text)`: cut before the first
sentence punctuation that is followed by whitespace. -/
def firstSentencePrefix : Str → Str
  | [] => []
  | c :: rest =>
    if (c = '.' || c = '!' || c = '?') &&
        (match rest with
          | d :: _ => isPySpace d
          | [] => false) then []
    else c :: firstSentencePrefix rest

/-- Window of up to nine lines after the first `Key Entities` label. -/
def findEntitiesWindow : List Str → Option (List Str)
  | [] => none
  | l :: rest =>
    if lineHasLabel (lit "key entities:") l then some (rest.take 9)
    else findEntitiesWindow rest

/-- One pass of the entity-window loop (lines 296-312): each of the three
checks runs on every window line, later lines overwriting earlier ones. -/
def applyEntityLine (ke : List Str × List Str × List Str) (line : Str) :
    List Str × List Str × List Str :=
  let low := lowerStr line
  let ke1 :=
    if strContains low (lit "people") then
      match bracketContent line with
      | some c => (entitiesFromBracket c, ke.2.1, ke.2.2)
      | none => ke
    else ke
  let ke2 :=
    if strContains low (lit "domains") then
      match bracketContent line with
      | some c => (ke1.1, entitiesFromBracket c, ke1.2.2)
      | none => ke1
    else ke1
  if strContains low (lit "assets") then
    match bracketContent line with
    | some c => (ke2.1, ke2.2.1, entitiesFromBracket c)
    | none => ke2
  else ke2

/-- Window of up to four lines after the first `Memory...:` label. -/
def findSnippetWindow : List Str → Option (List Str)
  | [] => none
  | l :: rest =>
    if lineHasLabelColon (lit "memory") l then some (rest.take 4)
    else findSnippetWindow rest

/-- Snippet collection (lines 328-334): keep stripped non-header lines,
stop at the first blank/header once something was collected. -/
def collectSnippet : List Str → List Str → List Str
  | [], acc => acc.reverse
  | l :: rest, acc =>
    let s := pyStrip l
    if !s.isEmpty && !headerLine s then collectSnippet rest (s :: acc)
    else if !acc.isEmpty then acc.reverse
    else collectSnippet rest acc

/-- A JSON array of strings. -/
def strListToJson (ts : List Str) : Json :=
  .arr (ts.foldl (fun acc t => acc.push (.str t)) .nil)

/-- The `key_entities` object. -/
def entitiesToJson (ke : List Str × List Str × List Str) : Json :=
  .obj (((JsonMembers.nil.insert (lit "people") (strListToJson ke.1)).insert
      (lit "domains") (strListToJson ke.2.1)).insert
    (lit "assets") (strListToJson ke.2.2))

/-- Defaults dict of `generate_json_from_markdown` (lines 211-224). -/
def mdFallbackDefaults (metaTitle metaProject : Str) : Json :=
  .obj ((((((((JsonMembers.nil.insert (lit "title") (.str metaTitle)).insert
      (lit "project") (.str metaProject)).insert
      (lit "tags") (.arr .nil)).insert
      (lit "summary_short") (.str (lit "Conversation indexed (fallback generation)"))).insert
      (lit "summary_detailed")
        (.str (lit "Full details unavailable due to indexing format issue. See conversation for details."))).insert
      (lit "key_entities") (entitiesToJson ([], [], []))).insert
      (lit "key_topics") (.arr .nil)).insert
    (lit "memory_snippet") (.str (lit "See conversation for details")))

/-- Embeds `generate_json_from_markdown` (conversation_indexer.py lines
194-341). -/
def generate_json_from_markdown (markdown : Str) (metaTitle metaProject : Str) : Json :=
  let lines := splitOnChar '\n' markdown
  let r0 := mdFallbackDefaults metaTitle metaProject
  let r1 :=
    match lines.find? (lineHasLabel (lit "title:")) with
    | some l =>
      match afterColonGroup l with
      | some g => jSet r0 (lit "title") (.str (cleanFieldValue g))
      | none => r0
    | none => r0
  let r2 :=
    match lines.find? (lineHasLabel (lit "project:")) with
    | some l =>
      match afterColonGroup l with
      | some g =>
        jSet r1 (lit "project") (.str (normalize_project_tag (cleanFieldValue g)))
      | none => r1
    | none => r1
  let r3 :=
    match lines.find? (lineHasLabel (lit "tags:")) with
    | some l =>
      match bracketContent l with
      | some c => jSet r2 (lit "tags") (strListToJson (tagsFromBracket c))
      | none => r2
    | none => r2
  let r4 :=
    match summaryLines lines with
    | [] => r3
    | sls =>
      let text := joinChar ' ' sls
      let s0 := firstSentencePrefix text
      let short := if s0.getLastD ' ' = '.' then s0 else s0 ++ ['.']
      jSet (jSet r3 (lit "summary_short") (.str short)) (lit "summary_detailed") (.str text)
  let r5 :=
    match findEntitiesWindow lines with
    | some win => jSet r4 (lit "key_entities") (entitiesToJson (win.foldl applyEntityLine ([], [], [])))
    | none => r4
  let r6 :=
    match lines.find? (lineHasLabel (lit "key topics:")) with
    | some l =>
      match bracketContent l with
      | some c => jSet r5 (lit "key_topics") (strListToJson (entitiesFromBracket c))
      | none => r5
    | none => r5
  match findSnippetWindow lines with
  | some win =>
    match collectSnippet win [] with
    | [] => r6
    | sl => jSet r6 (lit "memory_snippet") (.str (joinChar ' ' sl))
  | none => r6

/-! ## Session indexer

Embeds `index_session` (conversation_indexer.py lines 387-753) over an
explicit database state.  The local LLM (`check_ollama_health` plus
`generate_with_ollama`) is an oracle `LlmOutcome`; the embedding service
is an oracle `Option Emb` (`none` models a raised-and-caught exception);
`fallbackDbFails` models the only way the fallback `try` block can fail,
a database error while re-reading the conversation metadata. -/

/-- Embedding vectors are opaque tokens; only identity and an abstract
distance ever matter. -/
abbrev Emb := List Int

structure Conversation where
  id : Nat
  project : Option Str
  title : Option Str
deriving DecidableEq

structure Message where
  conversation_id : Nat
  role : Str
  content : Str
deriving DecidableEq

/-- One `conversation_index` row as written by the indexer.  Data fields
keep their parsed-JSON values, exactly what the SQL parameters carry. -/
structure IndexRecord where
  session_id : Nat
  project : Json
  title : Json
  tags : Json
  summary_short : Json
  summary_detailed : Json
  key_entities : Json
  key_topics : Json
  memory_snippet : Json
  ollama_model : Str
  version : Int
  embedding : Option Emb
deriving DecidableEq

structure DB where
  conversations : List Conversation
  messages : List Message
  conversation_index : List IndexRecord
deriving DecidableEq

/-- Outcome of the health check plus LLM call. -/
inductive LlmOutcome where
  | healthFail
  | generateFail
  | success (text : Str)
deriving DecidableEq

/-- The exceptions `index_session` can raise. -/
inductive IndexErr where
  | valueError (msg : Str)
  | ollamaError (msg : Str)
deriving DecidableEq

/-- `UPDATE conversations SET project = %s WHERE id = %s`. -/
def setConvProject (db : DB) (sid : Nat) (p : Str) : DB :=
  { db with
    conversations :=
      db.conversations.map fun c => if c.id == sid then { c with project := some p } else c }

/-- Messages of a session in insertion (`created_at`) order. -/
def sessionMessages (db : DB) (sid : Nat) : List Message :=
  db.messages.filter (fun m => m.conversation_id == sid)

/-- Lookup of a `conversation_index` row by session id. -/
def getIndexRecord (db : DB) (sid : Nat) : Option IndexRecord :=
  db.conversation_index.find? (fun r => r.session_id == sid)

/-- The upsert of lines 669-704: `ON CONFLICT (session_id) DO UPDATE` of
every listed column; `embedding` is not in the update list, so an existing
embedding survives the conflict path. -/
def upsertIndexRecord : List IndexRecord → IndexRecord → List IndexRecord
  | [], r => [r]
  | r0 :: rest, r =>
    if r0.session_id == r.session_id then { r with embedding := r0.embedding } :: rest
    else r0 :: upsertIndexRecord rest r

/-- `UPDATE conversation_index SET embedding = ... WHERE session_id = ...`. -/
def setRecEmbedding (recs : List IndexRecord) (sid : Nat) (e : Emb) : List IndexRecord :=
  recs.map fun r => if r.session_id == sid then { r with embedding := some e } else r

/-- Required fields of the indexer output (lines 589-592). -/
def required_fields : List Str :=
  [lit "title", lit "project", lit "tags", lit "summary_short", lit "summary_detailed",
   lit "key_entities", lit "key_topics", lit "memory_snippet"]

/-- Fill missing required fields with typed defaults (lines 593-606). -/
def fillRequired (d : Json) : Json :=
  required_fields.foldl
    (fun acc f =>
      if jHas acc f then acc
      else if f = lit "tags" then jSet acc f (.arr .nil)
      else if f = lit "key_entities" then jSet acc f (entitiesToJson ([], [], []))
      else if f = lit "key_topics" then jSet acc f (.arr .nil)
      else jSet acc f (.str (lit "Missing " ++ f)))
    d

/-- Python `ollama_project in valid_projects` for a parsed-JSON value. -/
def jsonIsValidProject (j : Json) : Bool :=
  match j with
  | .str s => valid_projects.contains s
  | _ => false

/-- Project reconciliation (lines 608-663): the conversation project wins
unless it is `general` and the LLM proposed a valid specific tag with
`preserve_project` unset. -/
def reconcileProject (project : Str) (preserve : Bool) (d : Json) : Json :=
  let ollama := (jGet d (lit "project")).getD (.str (lit "general"))
  if project ≠ lit "general" then jSet d (lit "project") (.str project)
  else if !jsonIsValidProject ollama then jSet d (lit "project") (.str project)
  else if preserve then jSet d (lit "project") (.str project)
  else if ollama ≠ .str (lit "general") then jSet d (lit "project") ollama
  else jSet d (lit "project") (.str project)

/-- The row of SQL parameters of the upsert (lines 691-703). -/
def mkIndexRecord (sid : Nat) (model : Str) (version : Int) (d : Json) : IndexRecord :=
  { session_id := sid
    project := (jGet d (lit "project")).getD .null
    title := (jGet d (lit "title")).getD .null
    tags := (jGet d (lit "tags")).getD .null
    summary_short := (jGet d (lit "summary_short")).getD .null
    summary_detailed := (jGet d (lit "summary_detailed")).getD .null
    key_entities := (jGet d (lit "key_entities")).getD .null
    key_topics := (jGet d (lit "key_topics")).getD .null
    memory_snippet := (jGet d (lit "memory_snippet")).getD .null
    ollama_model := model
    version := version
    embedding := none }

/-- Validation, reconciliation, upsert and DAAS-embedding stage of
`index_session` (lines 588-753), after a parse or fallback produced
`d0`. -/
def finishIndexing (db1 : DB) (sid : Nat) (model : Str) (version : Int)
    (project : Str) (preserve : Bool) (d0 : Json) (embedOracle : Option Emb) :
    Except IndexErr (Option Json) × DB :=
  let d := reconcileProject project preserve (fillRequired d0)
  let newRec := mkIndexRecord sid model version d
  let db2 := { db1 with conversation_index := upsertIndexRecord db1.conversation_index newRec }
  if (jGet d (lit "project")).getD .null = .str (lit "DAAS") then
    let parts :=
      ([lit "title", lit "summary_detailed", lit "memory_snippet"].filterMap fun k =>
        match jGet d k with
        | some v => if jTruthy v then some v else none
        | none => none)
    if parts.isEmpty then (.ok (some d), db2)
    else
      match embedOracle with
      | some e =>
        (.ok (some d), { db2 with conversation_index := setRecEmbedding db2.conversation_index sid e })
      | none => (.ok (some d), db2)
  else (.ok (some d), db2)

/-- Lines 509-581 up to the choice of parser result: tolerant extraction
followed by `json.loads`; both failure kinds (`ValueError` from the
extractor, `JSONDecodeError` from the parser) take the same fallback
path, so they collapse to `none` here. -/
def parseStage (text : Str) : Option Json :=
  match extract_json_from_text text with
  | .ok jt => jsonLoads jt
  | .error _ => none

/-- The response-handling stage of `index_session` (lines 509-753): parse
with fallback, validate, reconcile, upsert, embed. -/
def indexFromResponse (db1 : DB) (sid : Nat) (model : Str) (version : Int)
    (project : Str) (preserve : Bool) (text : Str) (fb : Bool) (emb : Option Emb) :
    Except IndexErr (Option Json) × DB :=
  match parseStage text with
  | some d0 => finishIndexing db1 sid model version project preserve d0 emb
  | none =>
    if fb then (.ok none, db1)
    else
      match db1.conversations.find? (fun c => c.id == sid) with
      | some conv1 =>
        let mTitle :=
          match conv1.title with
          | some t => if t.isEmpty then lit "Untitled Conversation" else t
          | none => lit "Untitled Conversation"
        let mProj :=
          match conv1.project with
          | some p => if p.isEmpty then lit "general" else p
          | none => lit "general"
        finishIndexing db1 sid model version project preserve
          (generate_json_from_markdown text mTitle mProj) emb
      | none =>
        finishIndexing db1 sid model version project preserve
          (generate_json_from_markdown text (lit "Unknown") (lit "general")) emb

/-- Embeds `index_session` (conversation_indexer.py lines 387-753).  The
transcript and organizer prompt are built in the source between loading
the messages and calling the LLM; they only feed the oracle, so they do
not appear in the state model. -/
def index_session (db : DB) (sid : Nat) (model : Str) (version : Int)
    (override : Option Str) (preserve : Bool) (llm : LlmOutcome)
    (fallbackDbFails : Bool) (embedOracle : Option Emb) :
    Except IndexErr (Option Json) × DB :=
  match db.conversations.find? (fun c => c.id == sid) with
  | none => (.error (.valueError (lit "Conversation not found")), db)
  | some conv =>
    let project0 := normalizeOptTag conv.project
    let projover : Str × Bool :=
      match override with
      | some o =>
        if !o.isEmpty && project0 = lit "general" then
          let o1 := normalize_project_tag o
          if o1 ≠ lit "general" then (o1, true) else (project0, false)
        else (project0, false)
      | none => (project0, false)
    let project := projover.1
    let db1 := if projover.2 then setConvProject db sid project else db
    if (sessionMessages db sid).isEmpty then
      (.error (.valueError (lit "No messages found")), db1)
    else
      match llm with
      | .healthFail => (.error (.ollamaError (lit "Ollama is not accessible")), db1)
      | .generateFail => (.error (.ollamaError (lit "Ollama indexing failed")), db1)
      | .success text =>
        indexFromResponse db1 sid model version project preserve text fallbackDbFails embedOracle

/-! ## DAAS retrieval

Embeds brain_core/daas_retrieval.py over a list model of the
`conversation_index` table.  The pgvector cosine-distance operator `<=>`
is an abstract distance function `dist`; `ORDER BY embedding <=> q` is a
sort by ascending distance and similarity is `1 - dist`, exactly the SQL
expressions of lines 136-147. -/

/-- One `conversation_index` row as seen by the retrieval queries.
(`IndexRecord` above is the same table as written by the indexer; the
retrieval claims quantify over arbitrary stored rows, so the read model
uses plain typed columns.) -/
structure MemRec where
  session_id : Nat
  project : Str
  title : Option Str
  tags : Json
  summary_short : Option Str
  summary_detailed : Option Str
  key_entities : Json
  key_topics : Json
  memory_snippet : Option Str
  indexed_at : Nat
  embedding : Option Emb
deriving DecidableEq

/-- Postgres `LIKE` with `%`, `_` and backslash escape; fuel keeps the
recursion structural (`pat.length + text.length + 1` always suffices).
A pattern ending in a bare backslash is a Postgres error, observably a
non-match through the callers' catch-all handlers. -/
def likeAux : Nat → Str → Str → Bool
  | 0, _, _ => false
  | _ + 1, [], [] => true
  | _ + 1, [], _ :: _ => false
  | fuel + 1, '%' :: p, t =>
    likeAux fuel p t ||
      (match t with
        | [] => false
        | _ :: t2 => likeAux fuel ('%' :: p) t2)
  | fuel + 1, '_' :: p, t =>
    (match t with
      | [] => false
      | _ :: t2 => likeAux fuel p t2)
  | fuel + 1, '\\' :: c :: p, t =>
    (match t with
      | [] => false
      | d :: t2 => d = c && likeAux fuel p t2)
  | _ + 1, ['\\'], _ => false
  | fuel + 1, c :: p, t =>
    (match t with
      | [] => false
      | d :: t2 => d = c && likeAux fuel p t2)

/-- Postgres `text LIKE pat`. -/
def likeMatches (pat text : Str) : Bool :=
  likeAux (pat.length + text.length + 1) pat text

/-- The `title ILIKE '%cand%'` filter of retrieve_single_dream (line 78);
`ILIKE` compares case-insensitively, and a NULL title never matches. -/
def ilikeTitle (cand : Str) (title : Option Str) : Bool :=
  match title with
  | some t => likeMatches ('%' :: lowerStr cand ++ ['%']) (lowerStr t)
  | none => false

/-- Embeds `detect_quoted_title` (daas_retrieval.py lines 18-50): first
`"([^"]+)"` match, stripped, truncated to 500 characters. -/
def firstQuoted : Str → Option Str
  | [] => none
  | c :: rest =>
    if c = '"' then
      let content := rest.takeWhile (· ≠ '"')
      if !content.isEmpty && content.length < rest.length then some content
      else firstQuoted rest
    else firstQuoted rest

def detect_quoted_title (message : Str) : Option Str :=
  match firstQuoted message with
  | none => none
  | some m =>
    let title := pyStrip m
    if title.isEmpty then none else some (title.take 500)

/-- `ORDER BY indexed_at DESC LIMIT 1` over a filtered row set: the row
with the largest `indexed_at` (ties resolved as the engine pleases; this
model keeps the earliest such row). -/
def mostRecent : List MemRec → Option MemRec
  | [] => none
  | r :: rs =>
    match mostRecent rs with
    | none => some r
    | some m => some (if m.indexed_at > r.indexed_at then m else r)

/-- Embeds `retrieve_single_dream` (daas_retrieval.py lines 53-102). -/
def retrieve_single_dream (db : List MemRec) (title : Str) : Option MemRec :=
  if title.isEmpty then none
  else mostRecent (db.filter (fun r => r.project = lit "DAAS" && ilikeTitle title r.title))

/-- Distance of a row's embedding to the query vector (rows without an
embedding are filtered out before this is ever used). -/
def recDist (dist : Emb → Emb → ℚ) (qv : Emb) (r : MemRec) : ℚ :=
  match r.embedding with
  | some e => dist e qv
  | none => 0

/-- `WHERE project = 'DAAS' AND embedding IS NOT NULL`. -/
def vectorCandidates (db : List MemRec) : List MemRec :=
  db.filter (fun r => r.project = lit "DAAS" && r.embedding.isSome)

/-- `ORDER BY embedding <=> q` (ascending distance). -/
def sortByDistance (dist : Emb → Emb → ℚ) (qv : Emb) (rs : List MemRec) : List MemRec :=
  List.insertionSort (fun a b => recDist dist qv a ≤ recDist dist qv b) rs

/-- One pattern-mode result row. -/
structure DreamHit where
  session_id : Nat
  title : Option Str
  summary_short : Option Str
  memory_snippet : Option Str
  similarity : Option ℚ
deriving DecidableEq

/-- Embeds `retrieve_pattern_dreams` (daas_retrieval.py lines 105-177);
`qEmbed = none` models a raised-and-caught embedding failure. -/
def retrieve_pattern_dreams (dist : Emb → Emb → ℚ) (qEmbed : Option Emb)
    (db : List MemRec) (query : Str) (top_k : Nat) : List DreamHit :=
  if (pyStrip query).isEmpty then []
  else
    match qEmbed with
    | none => []
    | some qv =>
      ((sortByDistance dist qv (vectorCandidates db)).take top_k).map fun r =>
        { session_id := r.session_id
          title := r.title
          summary_short := r.summary_short
          memory_snippet := r.memory_snippet
          similarity := some (1 - recDist dist qv r) }

/-- Python f-string of a nullable text column (`None` prints as `None`). -/
def optPyStr (o : Option Str) : Str := o.getD (lit "None")

/-- Truthiness of a nullable text value. -/
def truthyOptStr (o : Option Str) : Bool :=
  match o with
  | some s => !s.isEmpty
  | none => false

/-- Join with a multi-character separator. -/
def joinSep (sep : Str) : List Str → Str
  | [] => []
  | [x] => x
  | x :: xs => x ++ sep ++ joinSep sep xs

/-- Result of `retrieve_daas_context`. -/
structure DaasResult where
  mode : Str
  dreams : List DreamHit
  context : Str
deriving DecidableEq

/-- Embeds `retrieve_daas_context` (daas_retrieval.py lines 180-253). -/
def retrieve_daas_context (dist : Emb → Emb → ℚ) (qEmbed : Option Emb)
    (db : List MemRec) (user_message : Str) (top_k : Nat) : DaasResult :=
  match detect_quoted_title user_message with
  | some qt =>
    match retrieve_single_dream db qt with
    | some r =>
      { mode := lit "single"
        dreams := [⟨r.session_id, r.title, r.summary_short, r.memory_snippet, none⟩]
        context :=
          lit "Dream: " ++ optPyStr r.title ++ '\n' ::
            (optPyStr r.summary_short ++ '\n' :: optPyStr r.memory_snippet) }
    | none =>
      { mode := lit "single"
        dreams := []
        context :=
          lit "No dream found matching " ++ squote :: qt ++ squote ::
            lit ". Did you mean one of these? (Try searching without quotes for pattern matching.)" }
  | none =>
    let dreams := retrieve_pattern_dreams dist qEmbed db user_message top_k
    let context_parts := dreams.filterMap fun h =>
      let parts :=
        (if truthyOptStr h.title then [lit "Dream: " ++ h.title.getD []] else []) ++
          (if truthyOptStr h.summary_short then [lit "Summary: " ++ h.summary_short.getD []] else []) ++
          (if truthyOptStr h.memory_snippet then [lit "Memory: " ++ h.memory_snippet.getD []] else [])
      if parts.isEmpty then none else some (joinChar '\n' parts)
    if !dreams.isEmpty && !context_parts.isEmpty then
      { mode := lit "pattern"
        dreams := dreams
        context := joinSep (lit "\n\n---\n\n") context_parts }
    else
      { mode := lit "pattern"
        dreams := []
        context :=
          lit "No relevant dreams found for your query. Try rephrasing or asking about a specific dream using quotes." }

/-! ## Context assembler

Embeds `build_daas_rag_context`, `build_thn_rag_context` and
`build_project_context` (brain_core/context_builder.py lines 380-951)
over list models of `conversation_index`, `code_index` and
`project_knowledge`; the MCP note client is an oracle (`none` models the
caught import/API exception). -/

structure CodeChunk where
  file_path : Str
  language : Str
  chunk_text : Str
  chunk_metadata : Json
  embedding : Option Emb
deriving DecidableEq

structure CtxResult where
  context : Str
  notes : List Str
deriving DecidableEq

structure PKRow where
  project : Str
  key : Nat
  summary : Str
deriving DecidableEq

structure McpNote where
  title : Str
  uri : Str
  content_snippet : Str
deriving DecidableEq

/-- Python `s[:n] + ("..." if len(s) > n else "")`. -/
def truncDots (n : Nat) (s : Str) : Str :=
  if s.length > n then s.take n ++ lit "..." else s

/-- Items of a JSON array. -/
def jsonListToList : JsonList → List Json
  | .nil => []
  | .cons h t => h :: jsonListToList t

/-- Values of a JSON object. -/
def memberValues : JsonMembers → List Json
  | .nil => []
  | .cons _ v t => v :: memberValues t

/-- Embeds `fetch_project_knowledge` (brain_core/memory.py lines 9-29):
summaries of the project's `project_knowledge` rows ordered by key. -/
def fetch_project_knowledge (pk : List PKRow) (project : Str) : List Str :=
  if project.isEmpty then []
  else
    (List.insertionSort (fun a b : PKRow => a.key ≤ b.key)
        (pk.filter (fun r => r.project = project))).map (·.summary)

/-- Embeds `build_daas_rag_context` (context_builder.py lines 655-760). -/
def build_daas_rag_context (dist : Emb → Emb → ℚ) (qEmbed : Option Emb)
    (db : List MemRec) (user_message : Str) (top_k : Nat) : CtxResult :=
  if (pyStrip user_message).isEmpty then ⟨[], []⟩
  else
    let k := if top_k > 0 then min top_k 5 else 3
    match qEmbed with
    | none => ⟨[], []⟩
    | some qv =>
      let rows := (sortByDistance dist qv (vectorCandidates db)).take k
      if rows.isEmpty then ⟨[], []⟩
      else
        let perRow : MemRec → List Str := fun r =>
          [lit "**Dream: " ++
              (match r.title with
                | some t => if t.isEmpty then lit "Untitled" else t
                | none => lit "Untitled") ++ lit "**"] ++
            (if truthyOptStr r.summary_short then
              [lit "- **Summary**: " ++ truncDots 300 (r.summary_short.getD [])]
            else []) ++
            (if truthyOptStr r.memory_snippet then
              [lit "- **Key Details**: " ++ truncDots 200 (r.memory_snippet.getD [])]
            else []) ++
            [[], lit "---", []]
        let parts0 := lit "### Related Dreams for Analysis\n" :: (rows.map perRow).flatten
        let parts :=
          if parts0.length > 1 && parts0.getLastD [] = [] &&
              (parts0.dropLast).getLastD [] = lit "---" then
            parts0.dropLast.dropLast
          else parts0
        { context := joinChar '\n' parts
          notes := [lit "Retrieved " ++ natStr rows.length ++ lit " dreams via vector similarity search"] }

/-- Python `", ".flatten(str(v) ...)` over a JSONB value per the three-way
`isinstance` dispatch of `_format_conversation_entry` (lines 425-443):
list items unfiltered, dict values filtered by truthiness. -/
def jsonbJoinComma (j : Json) : Str :=
  match j with
  | .arr xs => joinSep (lit ", ") ((jsonListToList xs).filter jTruthy |>.map pyStr)
  | .obj ms => joinSep (lit ", ") ((memberValues ms).filter jTruthy |>.map pyStr)
  | v => pyStr v

/-- Embeds `_format_conversation_entry` (context_builder.py lines 407-465). -/
def format_conversation_entry (r : MemRec) : Str :=
  let parts :=
    (if truthyOptStr r.title then [lit "- **Title:** " ++ r.title.getD []] else []) ++
      (if jTruthy r.tags then
        (let s := jsonbJoinComma r.tags
          if s.isEmpty then [] else [lit "- **Tags:** " ++ s])
      else []) ++
      (if jTruthy r.key_entities then
        (let s := jsonbJoinComma r.key_entities
          if s.isEmpty then [] else [lit "- **Key Entities:** " ++ s])
      else []) ++
      (if truthyOptStr r.summary_detailed then
        [lit "- **Summary:** " ++ truncDots 500 (r.summary_detailed.getD [])]
      else []) ++
      (if truthyOptStr r.memory_snippet then
        [lit "- **Memory Snippet:** " ++ truncDots 300 (r.memory_snippet.getD [])]
      else [])
  if truthyOptStr r.title || truthyOptStr r.summary_detailed then joinChar '\n' parts
  else []

/-- Sort `conversation_index` rows by `indexed_at DESC`. -/
def sortRecency (rs : List MemRec) : List MemRec :=
  List.insertionSort (fun a b : MemRec => b.indexed_at ≤ a.indexed_at) rs

/-- Embeds `_retrieve_thn_conversations` (context_builder.py lines 377-404). -/
def retrieve_thn_conversations (db : List MemRec) (limitN : Nat) : List MemRec :=
  (sortRecency (db.filter (fun r => r.project = lit "THN"))).take limitN

/-- Distance of a code chunk to the query vector. -/
def chunkDist (dist : Emb → Emb → ℚ) (qv : Emb) (c : CodeChunk) : ℚ :=
  match c.embedding with
  | some e => dist e qv
  | none => 0

/-- Embeds `_retrieve_thn_code` (context_builder.py lines 469-518): no
project filter, embeddings non-null, top-k by distance; falsy metadata
replaced by an empty dict. -/
def retrieve_thn_code (dist : Emb → Emb → ℚ) (qEmbed : Option Emb)
    (db : List CodeChunk) (user_message : Str) (top_k : Nat) : List CodeChunk :=
  if (pyStrip user_message).isEmpty then []
  else
    match qEmbed with
    | none => []
    | some qv =>
      ((List.insertionSort (fun a b => chunkDist dist qv a ≤ chunkDist dist qv b)
            (db.filter (fun c => c.embedding.isSome))).take top_k).map fun c =>
        { c with chunk_metadata := if jTruthy c.chunk_metadata then c.chunk_metadata else .obj .nil }

/-- Python `os.path.basename` for slash-separated paths. -/
def basename (p : Str) : Str := (p.reverse.takeWhile (· ≠ '/')).reverse

/-- Python `s.endswith(suf)`. -/
def strEnds (suf s : Str) : Bool := strStarts suf.reverse s.reverse

/-- Embeds `_format_code_snippet` (context_builder.py lines 521-571). -/
def format_code_snippet (c : CodeChunk) : Str :=
  let mdDescr : Option Json :=
    match c.chunk_metadata with
    | .obj ms =>
      if (ms.get (lit "function_name")).isSome then ms.get (lit "function_name")
      else ms.get (lit "class_name")
    | _ => none
  let baseDescr : Str :=
    if c.file_path.isEmpty then []
    else
      let b := basename c.file_path
      if strEnds (lit ".py") b then b.take (b.length - 3) else b
  let descr : Str :=
    match mdDescr with
    | some v => if jTruthy v then pyStr v else baseDescr
    | none => baseDescr
  let parts :=
    (if c.file_path.isEmpty then [] else [lit "**File:** " ++ c.file_path]) ++
      (if c.language.isEmpty then [] else [lit "**Language:** " ++ c.language]) ++
      (if descr.isEmpty then [] else [lit "**Description:** " ++ descr]) ++
      (if c.chunk_text.isEmpty then []
      else
        [lit "```" ++ c.language ++ '\n' :: (truncDots 1000 c.chunk_text ++ '\n' :: lit "```")])
  joinChar '\n' parts

/-- Embeds `build_thn_rag_context` (context_builder.py lines 574-650).
Both aggregate note strings hardcode the number 5, as the source does. -/
def build_thn_rag_context (dist : Emb → Emb → ℚ) (qEmbed : Option Emb)
    (memDb : List MemRec) (codeDb : List CodeChunk) (user_message : Str) : CtxResult :=
  let conversations := retrieve_thn_conversations memDb 5
  let historySection : List Str :=
    if conversations.isEmpty then []
    else
      let entries :=
        (conversations.map format_conversation_entry).filterMap fun f =>
          if f.isEmpty then none else some f
      let history_parts :=
        lit "### History & Context: Last 5 Conversations\n" ::
          (entries.map (fun e => [e, ([] : Str)])).flatten
      if history_parts.length > 1 then [joinChar '\n' history_parts] else []
  let historyNotes : List Str :=
    if !conversations.isEmpty && !historySection.isEmpty then
      [lit "Retrieved 5 conversations from conversation_index"]
    else []
  let code_chunks := retrieve_thn_code dist qEmbed codeDb user_message 5
  let codeSection : List Str :=
    if code_chunks.isEmpty then []
    else
      let snippets :=
        (code_chunks.map format_code_snippet).filterMap fun f =>
          if f.isEmpty then none else some f
      let code_parts := lit "### Relevant Code Snippets\n" :: (snippets.map (fun e => [e, ([] : Str)])).flatten
      if code_parts.length > 1 then [joinChar '\n' code_parts] else []
  let codeNotes : List Str :=
    if !code_chunks.isEmpty && !codeSection.isEmpty then
      [lit "Retrieved 5 code chunks via vector similarity search"]
    else []
  { context := joinSep (lit "\n\n") (historySection ++ codeSection)
    notes := historyNotes ++ codeNotes }

/-- Keyword relevance score (context_builder.py lines 843-877): number of
distinct lowercased user words occurring as substrings in the flattened
tags, key topics and detailed summary. -/
def jsonbFlatten (j : Json) : List Str :=
  if jTruthy j then
    match j with
    | .arr xs => (jsonListToList xs).map (fun t => lowerStr (pyStr t))
    | .obj ms => ((memberValues ms).filter jTruthy).map (fun v => lowerStr (pyStr v))
    | _ => []
  else []

def scoreRow (userWords : List Str) (r : MemRec) : Nat :=
  let tf :=
    jsonbFlatten r.tags ++ jsonbFlatten r.key_topics ++
      (match r.summary_detailed with
        | some s => if s.isEmpty then [] else [lowerStr s]
        | none => [])
  let all_text := joinChar ' ' tf
  (userWords.filter (fun w => strContains all_text w)).length

/-- Python `", ".flatten(key_topics) if isinstance(key_topics, list) else
str(key_topics)` (line 941). -/
def topicsStr (j : Json) : Str :=
  match j with
  | .arr xs => joinSep (lit ", ") ((jsonListToList xs).map pyStr)
  | v => pyStr v

/-- The generic (non-DAAS, non-THN) path of `build_project_context`
(context_builder.py lines 810-951); `none` is the empty-dict return. -/
def build_generic_project_context (mcpNotes : Option (List McpNote))
    (memDb : List MemRec) (pk : List PKRow)
    (project : Str) (user_message : Str) (limit_memories top_n : Nat) :
    Option CtxResult :=
  let mcpCtx : Option Str :=
    match mcpNotes with
    | some ns =>
      if ns.isEmpty then none
      else
        some (joinSep (lit "\n\n---\n\n")
          (ns.map fun n =>
            lit "From " ++ n.title ++ lit " (" ++ n.uri ++ lit "):\n" ++ n.content_snippet))
    | none => none
  let knowledge := fetch_project_knowledge pk project
  let rows := (sortRecency (memDb.filter (fun r => r.project = project))).take limit_memories
  let userWords := (pySplitWs (lowerStr user_message)).dedup
  let scored := rows.map (fun r => (scoreRow userWords r, r))
  let top_memories :=
    ((List.insertionSort (fun a b : Nat × MemRec => b.1 ≤ a.1) scored).take top_n).map (·.2)
  if knowledge.isEmpty && top_memories.isEmpty then none
  else
    let ctx1 :=
      match mcpCtx with
      | some m => [lit "Here are relevant meditation notes from this project:\n\n" ++ m]
      | none => []
    let notes1 : List Str :=
      match mcpCtx with
      | some _ => [lit "MCP notes: Retrieved relevant project-scoped meditation notes"]
      | none => []
    let ctx2 :=
      if knowledge.isEmpty then []
      else [lit "Here is a general summary of the project:\n" ++ joinSep (lit "\n\n") knowledge]
    let notes2 :=
      knowledge.map fun s =>
        if s.length > 100 then lit "Project knowledge: " ++ s.take 100 ++ lit "..."
        else lit "Project knowledge: " ++ s
    let memPieces : List (Str × List Str) := top_memories.filterMap fun r =>
      let mem_parts :=
        (if truthyOptStr r.title then [lit "Title: " ++ r.title.getD []] else []) ++
          (if truthyOptStr r.summary_short then [lit "Summary: " ++ r.summary_short.getD []] else []) ++
          (if truthyOptStr r.memory_snippet then [lit "Memory: " ++ r.memory_snippet.getD []] else []) ++
          (if jTruthy r.key_topics then [lit "Topics: " ++ topicsStr r.key_topics] else [])
      if mem_parts.isEmpty then none
      else
        some (joinChar '\n' mem_parts,
          if truthyOptStr r.summary_short then
            (let s := r.summary_short.getD []
              if s.length > 80 then [lit "Previous conversation: " ++ s.take 80 ++ lit "..."]
              else [lit "Previous conversation: " ++ s])
          else [])
    let memories_text := memPieces.map (·.1)
    let notes3 := (memPieces.map (·.2)).flatten
    let ctx3 :=
      if memories_text.isEmpty then []
      else
        [lit "Here are relevant memories from past conversations in this project:\n\n" ++
          joinSep (lit "\n\n---\n\n") memories_text]
    let context_parts := ctx1 ++ ctx2 ++ ctx3
    if context_parts.isEmpty then none
    else
      some
        { context :=
            joinSep (lit "\n\n") context_parts ++
              lit "\n\nUse this information in our conversation. This is a natural dialogue - " ++
              lit "recall and reference relevant information from these notes and prior conversations " ++
              lit "as topics come up."
          notes := (notes1 ++ notes2 ++ notes3).take 10 }

/-- Embeds `build_project_context` (context_builder.py lines 763-951):
dispatch to the DAAS RAG builder, the THN RAG builder, or the generic
keyword-scored path.  The DAAS and THN builders are total here, so the
exception fall-through of the dispatcher never fires in the model. -/
def build_project_context (dist : Emb → Emb → ℚ) (qEmbed : Option Emb)
    (distC : Emb → Emb → ℚ) (qEmbedC : Option Emb)
    (mcpNotes : Option (List McpNote))
    (memDb : List MemRec) (codeDb : List CodeChunk) (pk : List PKRow)
    (project : Str) (user_message : Str) (limit_memories top_n : Nat) :
    Option CtxResult :=
  if project = lit "DAAS" then
    some (build_daas_rag_context dist qEmbed memDb user_message 3)
  else if project = lit "THN" then
    some (build_thn_rag_context distC qEmbedC memDb codeDb user_message)
  else
    build_generic_project_context mcpNotes memDb pk project user_message limit_memories top_n

/-! ## Basic lemmas about the embedded operations -/

theorem memGet_insert_self : ∀ (ms : JsonMembers) (k : Str) (v : Json),
    (ms.insert k v).get k = some v
  | .nil, k, v => by simp [JsonMembers.insert, JsonMembers.get]
  | .cons k0 v0 tl, k, v => by
    by_cases h : k0 = k
    · simp [JsonMembers.insert, JsonMembers.get, h]
    · simp [JsonMembers.insert, JsonMembers.get, h, memGet_insert_self tl k v]

theorem memGet_insert_other : ∀ (ms : JsonMembers) (k k' : Str) (v : Json), k' ≠ k →
    (ms.insert k v).get k' = ms.get k'
  | .nil, k, k', v, h => by
    simp [JsonMembers.insert, JsonMembers.get, Ne.symm h]
  | .cons k0 v0 tl, k, k', v, h => by
    by_cases h0 : k0 = k
    · subst h0
      simp [JsonMembers.insert, JsonMembers.get, Ne.symm h]
    · simp only [JsonMembers.insert, if_neg h0, JsonMembers.get]
      by_cases h1 : k0 = k'
      · simp [h1]
      · simp [h1, memGet_insert_other tl k k' v h]

theorem jGet_jSet_eq (ms : JsonMembers) (k : Str) (v : Json) :
    jGet (jSet (.obj ms) k v) k = some v := by
  simp [jSet, jGet, memGet_insert_self]

theorem jGet_jSet_other (ms : JsonMembers) (k k' : Str) (v : Json) (h : k' ≠ k) :
    jGet (jSet (.obj ms) k v) k' = jGet (.obj ms) k' := by
  simp [jSet, jGet, memGet_insert_other _ _ _ _ h]

theorem jGet_some_obj {d : Json} {k : Str} {v : Json} (h : jGet d k = some v) :
    ∃ ms, d = .obj ms := by
  cases d <;> simp_all [jGet]

/-- A present field survives the required-field fill. -/
theorem fillRequired_preserves {d : Json} {k : Str} {v : Json} (h : jGet d k = some v) :
    jGet (fillRequired d) k = some v := by
  unfold fillRequired
  generalize required_fields = fs
  induction fs generalizing d with
  | nil => simpa using h
  | cons f fs ih =>
    simp only [List.foldl_cons]
    apply ih
    by_cases hh : jHas d f
    · simpa [hh] using h
    · obtain ⟨ms, rfl⟩ := jGet_some_obj h
      have hfk : k ≠ f := by
        rintro rfl
        simp [jHas, h] at hh
      simp only [hh, if_false, Bool.false_eq_true]
      split_ifs <;> rw [jGet_jSet_other _ _ _ _ hfk] <;> exact h

/-- The fill keeps dicts dicts. -/
theorem fillRequired_obj (ms : JsonMembers) :
    ∃ ms', fillRequired (.obj ms) = .obj ms' := by
  unfold fillRequired
  generalize required_fields = fs
  induction fs generalizing ms with
  | nil => exact ⟨ms, rfl⟩
  | cons f fs ih =>
    simp only [List.foldl_cons]
    by_cases hh : jHas (Json.obj ms) f
    · simpa [hh] using ih ms
    · simp only [hh, if_false, Bool.false_eq_true]
      split_ifs <;> exact ih (ms.insert f _)

theorem normalize_mem (s : Str) : normalize_project_tag s ∈ valid_projects := by
  simp only [normalize_project_tag, valid_projects]
  split
  · rename_i h
    simp only [Bool.or_eq_true, decide_eq_true_eq] at h
    rcases h with ((h | h) | h) | h <;> rw [h] <;> simp
  · simp

theorem specific_ne_general {p : Str} (h : p ∈ specific_projects) : p ≠ lit "general" := by
  simp only [specific_projects, List.mem_cons, List.mem_singleton] at h
  rcases h with rfl | rfl | rfl | rfl | h <;> first | decide | cases h

theorem specific_mem_valid {p : Str} (h : p ∈ specific_projects) : p ∈ valid_projects := by
  simp only [specific_projects, List.mem_cons, List.mem_singleton] at h
  rcases h with rfl | rfl | rfl | rfl | h <;> first | decide | cases h

theorem normalize_specific_fix {p : Str} (h : p ∈ specific_projects) :
    normalize_project_tag p = p := by
  simp only [specific_projects, List.mem_cons, List.mem_singleton] at h
  rcases h with rfl | rfl | rfl | rfl | h <;> first | decide | cases h

theorem reconcile_spec (ms : JsonMembers) (project : Str) (pres : Bool)
    (h : project ≠ lit "general") :
    jGet (reconcileProject project pres (.obj ms)) (lit "project") = some (.str project) := by
  simp only [reconcileProject]
  rw [if_pos h]
  exact jGet_jSet_eq ms _ _

theorem validProject_str {o : Json} (h : jsonIsValidProject o = true) :
    ∃ s, o = .str s ∧ s ∈ valid_projects := by
  cases o <;> simp only [jsonIsValidProject] at h <;>
    first
      | exact Bool.noConfusion h
      | exact ⟨_, rfl, by simpa using h⟩

theorem reconcile_valid (ms : JsonMembers) (project : Str) (pres : Bool)
    (hp : project ∈ valid_projects) :
    ∃ s ∈ valid_projects,
      jGet (reconcileProject project pres (.obj ms)) (lit "project") = some (.str s) := by
  simp only [reconcileProject]
  split_ifs with h1 h2 h3 h4
  · exact ⟨project, hp, jGet_jSet_eq ms _ _⟩
  · exact ⟨project, hp, jGet_jSet_eq ms _ _⟩
  · exact ⟨project, hp, jGet_jSet_eq ms _ _⟩
  · have hv : jsonIsValidProject ((jGet (Json.obj ms) (lit "project")).getD (.str (lit "general"))) = true := by
      simpa using h2
    obtain ⟨s, hs, hmem⟩ := validProject_str hv
    exact ⟨s, hmem, by rw [hs]; exact jGet_jSet_eq ms _ _⟩
  · exact ⟨project, hp, jGet_jSet_eq ms _ _⟩

theorem reconcile_adopt (ms : JsonMembers) (t : Str)
    (h : JsonMembers.get ms (lit "project") = some (.str t)) (ht : t ∈ specific_projects) :
    jGet (reconcileProject (lit "general") false (.obj ms)) (lit "project") = some (.str t) := by
  have hget : jGet (Json.obj ms) (lit "project") = some (.str t) := by simpa [jGet] using h
  simp only [reconcileProject, hget, Option.getD_some]
  rw [if_neg (by simp)]
  rw [if_neg (by simp [jsonIsValidProject, specific_mem_valid ht])]
  rw [if_neg (by simp)]
  rw [if_pos (by simpa using specific_ne_general ht)]
  exact jGet_jSet_eq ms _ _

theorem setConvProject_messages (db : DB) (sid : Nat) (p : Str) :
    (setConvProject db sid p).messages = db.messages := rfl

theorem setConvProject_index (db : DB) (sid : Nat) (p : Str) :
    (setConvProject db sid p).conversation_index = db.conversation_index := rfl

theorem finishIndexing_fst (db1 : DB) (sid : Nat) (model : Str) (version : Int)
    (project : Str) (pres : Bool) (d0 : Json) (e : Option Emb) :
    (finishIndexing db1 sid model version project pres d0 e).1 =
      .ok (some (reconcileProject project pres (fillRequired d0))) := by
  simp only [finishIndexing]
  split
  · split
    · rfl
    · cases e <;> rfl
  · rfl

theorem finishIndexing_messages (db1 : DB) (sid : Nat) (model : Str) (version : Int)
    (project : Str) (pres : Bool) (d0 : Json) (e : Option Emb) :
    (finishIndexing db1 sid model version project pres d0 e).2.messages = db1.messages := by
  simp only [finishIndexing]
  split
  · split
    · rfl
    · cases e <;> rfl
  · rfl

theorem finishIndexing_conversations (db1 : DB) (sid : Nat) (model : Str) (version : Int)
    (project : Str) (pres : Bool) (d0 : Json) (e : Option Emb) :
    (finishIndexing db1 sid model version project pres d0 e).2.conversations = db1.conversations := by
  simp only [finishIndexing]
  split
  · split
    · rfl
    · cases e <;> rfl
  · rfl

theorem upsert_find (l : List IndexRecord) (r : IndexRecord) :
    ∃ e, (upsertIndexRecord l r).find? (fun x => x.session_id == r.session_id) =
      some { r with embedding := e } := by
  induction l with
  | nil =>
    refine ⟨r.embedding, ?_⟩
    simp [upsertIndexRecord, List.find?]
  | cons r0 rest ih =>
    by_cases h : r0.session_id == r.session_id
    · refine ⟨r0.embedding, ?_⟩
      simp [upsertIndexRecord, h, List.find?]
    · obtain ⟨e, he⟩ := ih
      refine ⟨e, ?_⟩
      simp only [upsertIndexRecord, h, if_false, Bool.false_eq_true]
      rw [List.find?_cons_of_neg _ (by simpa using h)]
      exact he

theorem setRecEmbedding_find_project (recs : List IndexRecord) (sid : Nat) (e : Emb) :
    ((setRecEmbedding recs sid e).find? (fun x => x.session_id == sid)).map (·.project) =
      (recs.find? (fun x => x.session_id == sid)).map (·.project) := by
  induction recs with
  | nil => rfl
  | cons r rest ih =>
    by_cases h : r.session_id == sid
    · simp [setRecEmbedding, h, List.find?]
    · simp only [setRecEmbedding, h, if_false, Bool.false_eq_true, List.map_cons]
      rw [List.find?_cons_of_neg _ (by simpa using h), List.find?_cons_of_neg _ (by simpa using h)]
      exact ih

theorem finishIndexing_record (db1 : DB) (sid : Nat) (model : Str) (version : Int)
    (project : Str) (pres : Bool) (d0 : Json) (e : Option Emb) :
    ((getIndexRecord (finishIndexing db1 sid model version project pres d0 e).2 sid).map (·.project)) =
      some ((jGet (reconcileProject project pres (fillRequired d0)) (lit "project")).getD .null) := by
  simp only [finishIndexing]
  obtain ⟨e0, he0⟩ :=
    upsert_find db1.conversation_index
      (mkIndexRecord sid model version (reconcileProject project pres (fillRequired d0)))
  have hsid : (mkIndexRecord sid model version
      (reconcileProject project pres (fillRequired d0))).session_id = sid := rfl
  rw [hsid] at he0
  split
  · split
    · simp only [getIndexRecord]
      rw [he0]
      rfl
    · cases e with
      | none =>
        simp only [getIndexRecord]
        rw [he0]
        rfl
      | some ev =>
        simp only [getIndexRecord, setRecEmbedding_find_project]
        rw [he0]
        rfl
  · simp only [getIndexRecord]
    rw [he0]
    rfl

/-! ## The parse stage always yields a dict

The extractor returns a slice that starts at an opening brace, comment
removal keeps that first brace, and a JSON document starting with a brace
parses to an object — so `index_session` can only hand dicts to the
validation stage, as the Python code silently assumes. -/

theorem parseObjBody_isObj : ∀ (fuel : Nat) (cs : Str) (first : Bool) (acc : JsonMembers)
    (v : Json) (r : Str), parseObjBody fuel cs first acc = some (v, r) → ∃ ms, v = .obj ms := by
  intro fuel
  induction fuel with
  | zero =>
    intro cs first acc v r h
    simp [parseObjBody] at h
  | succ fuel ih =>
    intro cs first acc v r h
    cases cs with
    | nil => simp [parseObjBody] at h
    | cons c rest =>
      simp only [parseObjBody] at h
      split_ifs at h
      all_goals repeat' split at h
      all_goals
        first
          | exact ⟨_, h.1.symm⟩
          | (simp only [Option.some.injEq, Prod.mk.injEq] at h
             exact ⟨_, h.1.symm⟩)
          | exact ih _ _ _ _ _ h
          | simp at h

theorem skipJWs_cons_not (c : Char) (r : Str) (h : jsonWs c = false) :
    skipJWs (c :: r) = c :: r := by
  simp [skipJWs, List.dropWhile_cons, h]

theorem jsonLoads_lbrace_obj (r : Str) (v : Json) (h : jsonLoads (lbrace :: r) = some v) :
    ∃ ms, v = .obj ms := by
  unfold jsonLoads at h
  rw [skipJWs_cons_not lbrace r (by decide)] at h
  rw [show parseVal ((lbrace :: r).length + 1) (lbrace :: r) =
      parseObjBody ((lbrace :: r).length) (skipJWs r) true .nil from rfl] at h
  rcases hp : parseObjBody ((lbrace :: r).length) (skipJWs r) true .nil with _ | ⟨w, rest⟩
  · rw [hp] at h
    simp at h
  · rw [hp] at h
    have h2 : (if List.isEmpty (skipJWs rest) = true then some w else none) = some v := h
    split_ifs at h2
    simp only [Option.some.injEq] at h2
    obtain ⟨ms, rfl⟩ := parseObjBody_isObj _ _ _ _ _ _ hp
    exact ⟨ms, h2.symm⟩

theorem pyFindChar_drop (c : Char) : ∀ (s : Str) (i : Nat), pyFindChar c s = some i →
    ∃ r, s.drop i = c :: r := by
  intro s
  induction s with
  | nil => intro i h; simp [pyFindChar] at h
  | cons d rest ih =>
    intro i h
    simp only [pyFindChar] at h
    split_ifs at h with hd
    · simp only [Option.some.injEq] at h
      subst hd
      exact ⟨rest, by simp [← h]⟩
    · rcases hr : pyFindChar c rest with _ | j
      · rw [hr] at h; simp at h
      · rw [hr] at h
        simp at h
        obtain ⟨r0, hr0⟩ := ih j hr
        refine ⟨r0, ?_⟩
        rw [← h]
        simpa using hr0

theorem findClosingBrace_ge : ∀ (cs : Str) (k : Int) (i j : Nat),
    findClosingBrace cs k i = some j → i ≤ j := by
  intro cs
  induction cs with
  | nil => intro k i j h; simp [findClosingBrace] at h
  | cons c rest ih =>
    intro k i j h
    simp only [findClosingBrace] at h
    split_ifs at h
    · exact le_trans (Nat.le_succ i) (ih _ _ _ h)
    · simp only [Option.some.injEq] at h
      omega
    · exact le_trans (Nat.le_succ i) (ih _ _ _ h)
    · exact le_trans (Nat.le_succ i) (ih _ _ _ h)

theorem splitOnChar_ne_nil (sep : Char) (s : Str) : splitOnChar sep s ≠ [] := by
  cases s with
  | nil => simp [splitOnChar]
  | cons c rest =>
    rcases hs : splitOnChar sep rest with _ | ⟨h0, t0⟩ <;>
      simp only [splitOnChar, hs] <;>
      first
        | (split_ifs <;> simp)
        | simp

theorem splitOnChar_cons_ne (sep c : Char) (s : Str) (h : c ≠ sep) :
    ∃ h0 t0, splitOnChar sep (c :: s) = (c :: h0) :: t0 := by
  rcases hs : splitOnChar sep s with _ | ⟨h0, t0⟩
  · exact absurd hs (splitOnChar_ne_nil sep s)
  · simp only [splitOnChar, hs]
    rw [if_neg h]
    exact ⟨h0, t0, rfl⟩

theorem cleanChars_cons_plain (n : Nat) (c : Char) (h0 : Str)
    (hc1 : c ≠ '\\') (hc2 : c ≠ '"') (hc3 : c ≠ '/') :
    cleanChars (n + 1) (c :: h0) false false =
      ((c :: (cleanChars n h0 false false).1, (cleanChars n h0 false false).2)) := by
  have d3 : decide (c = '/') = false := by simp [hc3]
  simp only [cleanChars]
  rw [if_neg hc1, if_neg hc2]
  simp [d3]

theorem pyLstrip_cons_nonws (c : Char) (x : Str) (h : isPySpace c = false) :
    pyLstrip (c :: x) = c :: x := by
  simp [pyLstrip, List.dropWhile, h]

theorem pyRstrip_cons_nonws (c : Char) (x : Str) (h : isPySpace c = false) :
    pyRstrip (c :: x) = c :: pyRstrip x := by
  simp only [pyRstrip, List.reverse_cons, List.dropWhile_append]
  split
  · rename_i hnil
    rw [List.isEmpty_iff] at hnil
    rw [hnil]
    simp [List.dropWhile_cons, h]
  · simp

theorem cleanLine_cons_lbrace (h0 : Str) :
    cleanLine (lbrace :: h0) false false =
      (lbrace :: (cleanChars h0.length h0 false false).1,
        (cleanChars h0.length h0 false false).2) := by
  unfold cleanLine
  exact cleanChars_cons_plain h0.length lbrace h0 (by decide) (by decide) (by decide)

theorem pyStrip_cons_head (c : Char) (y : Str) (hc : isPySpace c = false) :
    ∃ z, pyStrip (c :: y) = c :: z := by
  unfold pyStrip
  rw [pyLstrip_cons_nonws _ _ hc, pyRstrip_cons_nonws _ _ hc]
  exact ⟨_, rfl⟩

theorem pyStrip_joinChar_head (c : Char) (hc : isPySpace c = false) (y : Str) (t : List Str) :
    ∃ z, pyStrip (joinChar '\n' ((c :: y) :: t)) = c :: z := by
  cases t with
  | nil =>
    simp only [joinChar]
    exact pyStrip_cons_head c y hc
  | cons a b =>
    simp only [joinChar, List.cons_append]
    exact pyStrip_cons_head c _ hc

theorem removeJsonComments_lbrace (r : Str) :
    ∃ z, removeJsonComments (lbrace :: r) = lbrace :: z := by
  obtain ⟨h0, t0, hsplit⟩ := splitOnChar_cons_ne '\n' lbrace r (by decide)
  unfold removeJsonComments
  rw [hsplit]
  simp only [cleanLinesLoop, cleanLine_cons_lbrace]
  rw [pyRstrip_cons_nonws lbrace _ (by decide)]
  rw [if_neg (by simp)]
  exact pyStrip_joinChar_head lbrace (by decide) _ _

theorem extract_ok_head (t jt : Str) (h : extract_json_from_text t = .ok jt) :
    ∃ z, jt = lbrace :: z := by
  simp only [extract_json_from_text] at h
  split at h
  · split at h <;> simp at h
  · rename_i start hfind
    split at h
    · simp at h
    · rename_i endIdx hclose
      simp only [Except.ok.injEq] at h
      obtain ⟨rr, hrr⟩ := pyFindChar_drop lbrace _ start hfind
      have hge : start ≤ endIdx := findClosingBrace_ge _ 0 start endIdx hclose
      have hn : endIdx + 1 - start = (endIdx - start) + 1 := by omega
      rw [hrr, hn, List.take_succ_cons] at h
      obtain ⟨z, hz⟩ := removeJsonComments_lbrace (rr.take (endIdx - start))
      exact ⟨z, by rw [← h, hz]⟩

/-- Whatever the parse stage returns is a JSON object. -/
theorem parseStage_obj (text : Str) (d : Json) (h : parseStage text = some d) :
    ∃ ms, d = .obj ms := by
  unfold parseStage at h
  rcases he : extract_json_from_text text with jt | jt
  · rw [he] at h
    simp at h
  · rw [he] at h
    obtain ⟨z, rfl⟩ := extract_ok_head text jt he
    exact jsonLoads_lbrace_obj z d h

theorem indexFromResponse_fst (db1 : DB) (sid : Nat) (model : Str) (version : Int)
    (project : Str) (preserve : Bool) (text : Str) (fb : Bool) (emb : Option Emb) :
    ∃ r, (indexFromResponse db1 sid model version project preserve text fb emb).1 = .ok r := by
  unfold indexFromResponse
  split
  · exact ⟨_, finishIndexing_fst _ _ _ _ _ _ _ _⟩
  · split
    · exact ⟨none, rfl⟩
    · split
      · exact ⟨_, finishIndexing_fst _ _ _ _ _ _ _ _⟩
      · exact ⟨_, finishIndexing_fst _ _ _ _ _ _ _ _⟩

theorem indexFromResponse_messages (db1 : DB) (sid : Nat) (model : Str) (version : Int)
    (project : Str) (preserve : Bool) (text : Str) (fb : Bool) (emb : Option Emb) :
    (indexFromResponse db1 sid model version project preserve text fb emb).2.messages =
      db1.messages := by
  unfold indexFromResponse
  split
  · exact finishIndexing_messages _ _ _ _ _ _ _ _
  · split
    · rfl
    · split
      · exact finishIndexing_messages _ _ _ _ _ _ _ _
      · exact finishIndexing_messages _ _ _ _ _ _ _ _

theorem indexFromResponse_conversations (db1 : DB) (sid : Nat) (model : Str) (version : Int)
    (project : Str) (preserve : Bool) (text : Str) (fb : Bool) (emb : Option Emb) :
    (indexFromResponse db1 sid model version project preserve text fb emb).2.conversations =
      db1.conversations := by
  unfold indexFromResponse
  split
  · exact finishIndexing_conversations _ _ _ _ _ _ _ _
  · split
    · rfl
    · split
      · exact finishIndexing_conversations _ _ _ _ _ _ _ _
      · exact finishIndexing_conversations _ _ _ _ _ _ _ _

theorem indexFromResponse_ok_none (db1 : DB) (sid : Nat) (model : Str) (version : Int)
    (project : Str) (preserve : Bool) (text : Str) (fb : Bool) (emb : Option Emb)
    (h : (indexFromResponse db1 sid model version project preserve text fb emb).1 = .ok none) :
    (indexFromResponse db1 sid model version project preserve text fb emb).2 = db1 := by
  unfold indexFromResponse at h ⊢
  rcases hp : parseStage text with _ | d0 <;> rw [hp] at h
  · cases fb with
    | true => rfl
    | false =>
      rcases hf : db1.conversations.find? (fun c => c.id == sid) with _ | conv1 <;>
        rw [hf] at h <;> simp [finishIndexing_fst] at h
  · simp [finishIndexing_fst] at h

theorem finishIndexing_isSome (db1 : DB) (sid : Nat) (model : Str) (version : Int)
    (project : Str) (pres : Bool) (d0 : Json) (e : Option Emb) :
    (getIndexRecord (finishIndexing db1 sid model version project pres d0 e).2 sid).isSome
      = true := by
  have hrec := finishIndexing_record db1 sid model version project pres d0 e
  rcases hx : getIndexRecord (finishIndexing db1 sid model version project pres d0 e).2 sid
    with _ | r
  · rw [hx] at hrec
    exact Option.noConfusion hrec
  · rfl

/-- When parsing fails and the fallback's metadata read succeeds, the
markdown fallback path returns a document and upserts a `conversation_index`
row for the session. -/
theorem indexFromResponse_fallback_record (db1 : DB) (sid : Nat) (model : Str)
    (version : Int) (project : Str) (preserve : Bool) (text : Str) (emb : Option Emb)
    (hp : parseStage text = none) :
    (∃ d, (indexFromResponse db1 sid model version project preserve text false emb).1 =
      .ok (some d)) ∧
    (getIndexRecord
      (indexFromResponse db1 sid model version project preserve text false emb).2
      sid).isSome = true := by
  unfold indexFromResponse
  rw [hp]
  rcases hf : db1.conversations.find? (fun c => c.id == sid) with _ | conv1 <;> rw [hf] <;>
    exact ⟨⟨_, finishIndexing_fst _ _ _ _ _ _ _ _⟩, finishIndexing_isSome _ _ _ _ _ _ _ _⟩

/-- The sentinel `.ok none` arises exactly when parsing fails and the
fallback's own metadata read fails too. -/
theorem indexFromResponse_none_iff (db1 : DB) (sid : Nat) (model : Str) (version : Int)
    (project : Str) (preserve : Bool) (text : Str) (fb : Bool) (emb : Option Emb) :
    ((indexFromResponse db1 sid model version project preserve text fb emb).1 = .ok none ↔
      (parseStage text = none ∧ fb = true)) := by
  unfold indexFromResponse
  rcases hp : parseStage text with _ | d0
  · cases fb with
    | true => simp
    | false =>
      simp only [Bool.false_eq_true, if_false, and_false, iff_false]
      intro h
      rcases hf : db1.conversations.find? (fun c => c.id == sid) with _ | conv1 <;>
        rw [hf] at h <;> simp [finishIndexing_fst] at h
  · simp [finishIndexing_fst]

/-! ## Claim C1 -/

/-- Sample state for the C1 counterexample: one general-tagged session
with one message and no index rows. -/
def c1db : DB :=
  ⟨[⟨1, some (lit "general"), some (lit "Chat")⟩], [⟨1, lit "user", lit "hello"⟩], []⟩

/-- Claim C1 as stated is false: for a session that exists and has a
message, a failed LLM call (here the `generate_with_ollama` failure that a
timeout produces) is re-raised as `OllamaError` instead of being degraded
through the fallback to the sentinel `None`. -/
theorem claim_C1_counterexample :
    (index_session c1db 1 (lit "m") 1 none false .generateFail false none).1 =
      .error (.ollamaError (lit "Ollama indexing failed")) := by decide

/-- Claim C1 amended: with the session present and non-empty, a health-check
or LLM-call failure raises `OllamaError`, leaving the messages and the
memory records untouched; an LLM response never raises — parse failures
degrade through the markdown fallback (which writes a record), and when the
fallback metadata read itself fails the result is the sentinel `none` with
no record written. -/
theorem claim_C1_amended (db : DB) (sid : Nat) (model : Str) (version : Int)
    (override : Option Str) (preserve : Bool) (fb : Bool) (emb : Option Emb)
    (conv : Conversation)
    (hfind : db.conversations.find? (fun c => c.id == sid) = some conv)
    (hmsg : (sessionMessages db sid).isEmpty = false) :
    (∀ llm, llm = LlmOutcome.healthFail ∨ llm = LlmOutcome.generateFail →
      (∃ m, (index_session db sid model version override preserve llm fb emb).1 =
          .error (.ollamaError m)) ∧
      (index_session db sid model version override preserve llm fb emb).2.conversation_index =
        db.conversation_index ∧
      (index_session db sid model version override preserve llm fb emb).2.messages =
        db.messages) ∧
    (∀ text,
      (∃ r, (index_session db sid model version override preserve (.success text) fb emb).1 =
        .ok r) ∧
      (index_session db sid model version override preserve (.success text) fb emb).2.messages =
        db.messages ∧
      (parseStage text = none → fb = false →
        (∃ d, (index_session db sid model version override preserve (.success text) fb
            emb).1 = .ok (some d)) ∧
        (getIndexRecord (index_session db sid model version override preserve (.success text)
            fb emb).2 sid).isSome = true) ∧
      ((index_session db sid model version override preserve (.success text) fb emb).1 =
          .ok none ↔ (parseStage text = none ∧ fb = true)) ∧
      ((index_session db sid model version override preserve (.success text) fb emb).1 =
          .ok none →
        (index_session db sid model version override preserve (.success text) fb
            emb).2.conversation_index = db.conversation_index)) := by
  constructor
  · rintro llm (rfl | rfl) <;>
    · simp only [index_session, hfind, hmsg, Bool.false_eq_true, if_false]
      cases override with
      | none =>
        refine ⟨⟨_, rfl⟩, ?_, ?_⟩ <;> split <;>
          simp [setConvProject_index, setConvProject_messages]
      | some o =>
        refine ⟨⟨_, rfl⟩, ?_, ?_⟩ <;> split <;>
          simp [setConvProject_index, setConvProject_messages]
  · intro text
    simp only [index_session, hfind, hmsg, Bool.false_eq_true, if_false]
    have core : ∀ db1 : DB, db1.messages = db.messages →
        db1.conversation_index = db.conversation_index →
        ∀ project,
        (∃ r, (indexFromResponse db1 sid model version project preserve text fb emb).1 = .ok r) ∧
        (indexFromResponse db1 sid model version project preserve text fb emb).2.messages =
          db.messages ∧
        (parseStage text = none → fb = false →
          (∃ d, (indexFromResponse db1 sid model version project preserve text fb emb).1 =
            .ok (some d)) ∧
          (getIndexRecord (indexFromResponse db1 sid model version project preserve text fb
              emb).2 sid).isSome = true) ∧
        ((indexFromResponse db1 sid model version project preserve text fb emb).1 = .ok none ↔
          (parseStage text = none ∧ fb = true)) ∧
        ((indexFromResponse db1 sid model version project preserve text fb emb).1 = .ok none →
          (indexFromResponse db1 sid model version project preserve text fb
              emb).2.conversation_index = db.conversation_index) := by
      intro db1 hm hi project
      refine ⟨indexFromResponse_fst _ _ _ _ _ _ _ _ _, ?_, ?_, ?_, ?_⟩
      · rw [indexFromResponse_messages]
        exact hm
      · intro hpn hfb
        subst hfb
        exact indexFromResponse_fallback_record db1 sid model version project preserve
          text emb hpn
      · exact indexFromResponse_none_iff db1 sid model version project preserve text fb emb
      · intro habs
        rw [indexFromResponse_ok_none _ _ _ _ _ _ _ _ _ habs]
        exact hi
    cases override with
    | none => exact core db rfl rfl _
    | some o =>
      split
      · exact core _ (setConvProject_messages _ _ _) (setConvProject_index _ _ _) _
      · exact core db rfl rfl _

/-- Witness for C1 amended at the sample state: the LLM health check
failing raises, and an unparseable response degrades through the markdown
fallback, which writes an index row. -/
theorem claim_C1_amended_witness :
    (c1db.conversations.find? (fun c => c.id == 1) =
        some ⟨1, some (lit "general"), some (lit "Chat")⟩ ∧
      (sessionMessages c1db 1).isEmpty = false) ∧
    ((∃ m, (index_session c1db 1 (lit "m") 1 none false .healthFail false none).1 =
        .error (.ollamaError m)) ∧
      (index_session c1db 1 (lit "m") 1 none false .healthFail false
          none).2.conversation_index = c1db.conversation_index ∧
      (index_session c1db 1 (lit "m") 1 none false .healthFail false none).2.messages =
        c1db.messages) ∧
    ((∃ d, (index_session c1db 1 (lit "m") 1 none false (.success (lit "not json")) false
        none).1 = .ok (some d)) ∧
      (getIndexRecord (index_session c1db 1 (lit "m") 1 none false
        (.success (lit "not json")) false none).2 1).isSome = true) :=
  ⟨⟨by decide, by decide⟩,
    (claim_C1_amended c1db 1 (lit "m") 1 none false false none
        ⟨1, some (lit "general"), some (lit "Chat")⟩ (by decide)
        (by decide)).1 .healthFail (Or.inl rfl),
    ((claim_C1_amended c1db 1 (lit "m") 1 none false false none
        ⟨1, some (lit "general"), some (lit "Chat")⟩ (by decide)
        (by decide)).2 (lit "not json")).2.2.1 (by decide) rfl⟩

/-! ## Claim C10 -/

/-- Claim C10 confirmed: a valid specific `override_project` on a
general-tagged session is committed to the conversations row before the
LLM call, so when the call fails (or when parsing and its fallback both
fail), the row keeps the overridden project while no memory record is
written. -/
theorem claim_C10 (db : DB) (sid : Nat) (model : Str) (version : Int) (o : Str)
    (preserve : Bool) (emb : Option Emb) (conv : Conversation)
    (hfind : db.conversations.find? (fun c => c.id == sid) = some conv)
    (hgen : normalizeOptTag conv.project = lit "general")
    (ho : o.isEmpty = false)
    (hspec : normalize_project_tag o ≠ lit "general")
    (hmsg : (sessionMessages db sid).isEmpty = false) :
    (∀ llm fb, llm = LlmOutcome.healthFail ∨ llm = LlmOutcome.generateFail →
      (∃ m, (index_session db sid model version (some o) preserve llm fb emb).1 =
        .error (.ollamaError m)) ∧
      (index_session db sid model version (some o) preserve llm fb emb).2.conversations =
        (setConvProject db sid (normalize_project_tag o)).conversations ∧
      (index_session db sid model version (some o) preserve llm fb emb).2.conversation_index =
        db.conversation_index) ∧
    (∀ text, parseStage text = none →
      (index_session db sid model version (some o) preserve (.success text) true emb).1 =
        .ok none ∧
      (index_session db sid model version (some o) preserve (.success text) true
          emb).2.conversations =
        (setConvProject db sid (normalize_project_tag o)).conversations ∧
      (index_session db sid model version (some o) preserve (.success text) true
          emb).2.conversation_index = db.conversation_index) := by
  have hsimp : ∀ llm fb,
      index_session db sid model version (some o) preserve llm fb emb =
        match llm with
        | .healthFail => (.error (.ollamaError (lit "Ollama is not accessible")),
            setConvProject db sid (normalize_project_tag o))
        | .generateFail => (.error (.ollamaError (lit "Ollama indexing failed")),
            setConvProject db sid (normalize_project_tag o))
        | .success text => indexFromResponse (setConvProject db sid (normalize_project_tag o))
            sid model version (normalize_project_tag o) preserve text fb emb := by
    intro llm fb
    simp only [index_session, hfind, hmsg, Bool.false_eq_true, if_false, hgen, ho]
    rw [if_pos hspec]
    simp
  constructor
  · rintro llm fb (rfl | rfl) <;> rw [hsimp] <;>
      exact ⟨⟨_, rfl⟩, rfl, setConvProject_index _ _ _⟩
  · intro text hpt
    rw [hsimp]
    dsimp only
    unfold indexFromResponse
    rw [hpt]
    exact ⟨rfl, rfl, setConvProject_index _ _ _⟩

/-- Witness for C10: concrete general session with override `FF` and a
timed-out LLM call. -/
theorem claim_C10_witness :
    (c1db.conversations.find? (fun c => c.id == 1) =
        some ⟨1, some (lit "general"), some (lit "Chat")⟩ ∧
      normalizeOptTag (some (lit "general")) = lit "general" ∧
      (lit "FF").isEmpty = false ∧
      normalize_project_tag (lit "FF") ≠ lit "general" ∧
      (sessionMessages c1db 1).isEmpty = false) ∧
    ((∃ m, (index_session c1db 1 (lit "m") 1 (some (lit "FF")) false .generateFail false
        none).1 = .error (.ollamaError m)) ∧
      (index_session c1db 1 (lit "m") 1 (some (lit "FF")) false .generateFail false
          none).2.conversations =
        (setConvProject c1db 1 (normalize_project_tag (lit "FF"))).conversations ∧
      (index_session c1db 1 (lit "m") 1 (some (lit "FF")) false .generateFail false
          none).2.conversation_index = c1db.conversation_index) :=
  ⟨⟨by decide, by decide, by decide, by decide, by decide⟩,
    (claim_C10 c1db 1 (lit "m") 1 (lit "FF") false none
        ⟨1, some (lit "general"), some (lit "Chat")⟩ (by decide) (by decide)
        (by decide) (by decide) (by decide)).1 .generateFail false (Or.inr rfl)⟩

/-- The markdown fallback always produces a dict: every field update is a
`jSet` on the dict of defaults. -/
theorem markdown_obj (md t p : Str) :
    ∃ ms, generate_json_from_markdown md t p = .obj ms := by
  simp only [generate_json_from_markdown]
  repeat' split
  all_goals exact ⟨_, rfl⟩

/-! ## Claim C2 -/

/-- The LLM response used in the C2 run: a JSON object proposing `FF`. -/
def c2text : Str := lit "\x7b\"project\": \"FF\"\x7d"

/-- Claim C2 as stated is false: on a general-tagged session with
`preserve_project` unset and the LLM proposing the valid specific tag
`FF`, the stored record adopts `FF`, yet the conversations row is not
updated — the adoption branch of the reconciliation writes no `UPDATE
conversations`, so the row keeps `general`. -/
theorem claim_C2_counterexample :
    ((getIndexRecord (index_session c1db 1 (lit "m") 1 none false
        (.success c2text) false none).2 1).map (fun r => r.project) =
      some (.str (lit "FF"))) ∧
    (index_session c1db 1 (lit "m") 1 none false (.success c2text) false
        none).2.conversations =
      [⟨1, some (lit "general"), some (lit "Chat")⟩] := by decide

/-- Claim C2 amended: if the session tag is `general`, `preserve_project`
is unset and the parsed LLM output proposes a valid specific tag, the
stored record carries the LLM tag — but the conversations row is left
unchanged rather than updated to match. -/
theorem claim_C2_amended (db : DB) (sid : Nat) (model : Str) (version : Int)
    (fb : Bool) (emb : Option Emb) (conv : Conversation) (text : Str)
    (d0 : Json) (t : Str)
    (hfind : db.conversations.find? (fun c => c.id == sid) = some conv)
    (hgen : normalizeOptTag conv.project = lit "general")
    (hmsg : (sessionMessages db sid).isEmpty = false)
    (hparse : parseStage text = some d0)
    (hllm : jGet d0 (lit "project") = some (.str t))
    (hspec : t ∈ specific_projects) :
    (getIndexRecord (index_session db sid model version none false (.success text) fb
        emb).2 sid).map (fun r => r.project) = some (.str t) ∧
    (index_session db sid model version none false (.success text) fb emb).2.conversations =
      db.conversations := by
  have hrun : index_session db sid model version none false (.success text) fb emb =
      finishIndexing db sid model version (lit "general") false d0 emb := by
    simp only [index_session, hfind, hmsg, Bool.false_eq_true, if_false, hgen,
      indexFromResponse, hparse]
  rw [hrun]
  obtain ⟨ms, rfl⟩ := parseStage_obj text d0 hparse
  obtain ⟨ms2, hms2⟩ := fillRequired_obj ms
  have hfr : jGet (fillRequired (.obj ms)) (lit "project") = some (.str t) :=
    fillRequired_preserves hllm
  refine ⟨?_, finishIndexing_conversations _ _ _ _ _ _ _ _⟩
  rw [finishIndexing_record]
  have hadopt : jGet (reconcileProject (lit "general") false (fillRequired (.obj ms)))
      (lit "project") = some (.str t) := by
    rw [hms2]
    rw [hms2] at hfr
    exact reconcile_adopt ms2 t (by simpa [jGet] using hfr) hspec
  rw [hadopt]
  rfl

/-- Witness for C2 amended: the concrete run of the counterexample state
with the LLM proposing `FF`. -/
theorem claim_C2_amended_witness :
    (c1db.conversations.find? (fun c => c.id == 1) =
        some ⟨1, some (lit "general"), some (lit "Chat")⟩ ∧
      normalizeOptTag (some (lit "general")) = lit "general" ∧
      (sessionMessages c1db 1).isEmpty = false ∧
      parseStage c2text =
        some (.obj (.cons (lit "project") (.str (lit "FF")) .nil)) ∧
      jGet (.obj (.cons (lit "project") (.str (lit "FF")) .nil)) (lit "project") =
        some (.str (lit "FF")) ∧
      lit "FF" ∈ specific_projects) ∧
    ((getIndexRecord (index_session c1db 1 (lit "m") 1 none false (.success c2text) false
        none).2 1).map (fun r => r.project) = some (.str (lit "FF")) ∧
      (index_session c1db 1 (lit "m") 1 none false (.success c2text) false
          none).2.conversations = c1db.conversations) :=
  ⟨⟨by decide, by decide, by decide, by decide, by decide, by decide⟩,
    claim_C2_amended c1db 1 (lit "m") 1 false none
      ⟨1, some (lit "general"), some (lit "Chat")⟩ c2text
      (.obj (.cons (lit "project") (.str (lit "FF")) .nil)) (lit "FF")
      (by decide) (by decide) (by decide) (by decide) (by decide) (by decide)⟩

/-! ## Claim C3 -/

/-- Claim C3 confirmed: when the session carries a specific tag, every
record `index_session` stores on the LLM-response path carries that tag —
the LLM proposal is discarded even when valid, on the parse path and on
the markdown fallback path alike. -/
theorem claim_C3 (db : DB) (sid : Nat) (model : Str) (version : Int)
    (preserve fb : Bool) (emb : Option Emb) (conv : Conversation) (p text : Str)
    (hfind : db.conversations.find? (fun c => c.id == sid) = some conv)
    (hp : conv.project = some p)
    (hspec : p ∈ specific_projects)
    (hmsg : (sessionMessages db sid).isEmpty = false)
    (hok : (index_session db sid model version none preserve (.success text) fb emb).1 ≠
      .ok none) :
    (getIndexRecord (index_session db sid model version none preserve (.success text) fb
        emb).2 sid).map (fun r => r.project) = some (.str p) := by
  have hnorm : normalizeOptTag conv.project = p := by
    rw [hp]
    simp only [normalizeOptTag, Option.getD_some]
    exact normalize_specific_fix hspec
  have hne : p ≠ lit "general" := specific_ne_general hspec
  have hrun : index_session db sid model version none preserve (.success text) fb emb =
      indexFromResponse db sid model version p preserve text fb emb := by
    simp only [index_session, hfind, hmsg, Bool.false_eq_true, if_false, hnorm]
  rw [hrun] at hok ⊢
  have core : ∀ d0 : Json, (∃ ms, d0 = .obj ms) →
      (getIndexRecord (finishIndexing db sid model version p preserve d0 emb).2 sid).map
        (fun r => r.project) = some (.str p) := by
    rintro d0 ⟨ms, rfl⟩
    rw [finishIndexing_record]
    obtain ⟨ms2, hms2⟩ := fillRequired_obj ms
    rw [hms2, reconcile_spec ms2 p preserve hne]
    rfl
  simp only [indexFromResponse] at hok ⊢
  rcases hpt : parseStage text with _ | d0
  · simp only [hpt] at hok ⊢
    cases fb with
    | true => exact absurd rfl hok
    | false =>
      simp only [Bool.false_eq_true, if_false, hfind] at hok ⊢
      exact core _ (markdown_obj text _ _)
  · simp only [hpt] at hok ⊢
    obtain ⟨ms, rfl⟩ := parseStage_obj text d0 hpt
    exact core _ ⟨ms, rfl⟩

/-- Sample state for the C3 witness: a THN-tagged session with one
message. -/
def c3db : DB :=
  ⟨[⟨1, some (lit "THN"), some (lit "Chat")⟩], [⟨1, lit "user", lit "hello"⟩], []⟩

/-- The LLM response used in the C3 witness run: it proposes the valid
tag `DAAS`, which the session tag `THN` must override. -/
def c3text : Str := lit "\x7b\"project\": \"DAAS\"\x7d"

/-- Witness for C3: a THN session whose LLM response proposes DAAS still
stores a THN record. -/
theorem claim_C3_witness :
    (c3db.conversations.find? (fun c => c.id == 1) =
        some ⟨1, some (lit "THN"), some (lit "Chat")⟩ ∧
      (⟨1, some (lit "THN"), some (lit "Chat")⟩ : Conversation).project =
        some (lit "THN") ∧
      lit "THN" ∈ specific_projects ∧
      (sessionMessages c3db 1).isEmpty = false ∧
      (index_session c3db 1 (lit "m") 1 none false (.success c3text) false none).1 ≠
        .ok none) ∧
    (getIndexRecord (index_session c3db 1 (lit "m") 1 none false (.success c3text) false
        none).2 1).map (fun r => r.project) = some (.str (lit "THN")) :=
  ⟨⟨by decide, by decide, by decide, by decide, by decide⟩,
    claim_C3 c3db 1 (lit "m") 1 false false none
      ⟨1, some (lit "THN"), some (lit "Chat")⟩ (lit "THN") c3text
      (by decide) (by decide) (by decide) (by decide) (by decide)⟩

/-! ## Claim C4 -/

/-- Rows of the post-upsert table either come from the old table or carry
the new row's project (the conflict path only swaps the embedding). -/
theorem upsert_mem_project (l : List IndexRecord) (rec : IndexRecord) :
    ∀ x ∈ upsertIndexRecord l rec,
      x.project = rec.project ∨ ∃ y ∈ l, x.project = y.project := by
  induction l with
  | nil =>
    intro x hx
    simp only [upsertIndexRecord, List.mem_singleton] at hx
    exact Or.inl (by rw [hx])
  | cons r0 rest ih =>
    intro x hx
    simp only [upsertIndexRecord] at hx
    split at hx
    · rcases List.mem_cons.mp hx with rfl | hx
      · exact Or.inl rfl
      · exact Or.inr ⟨x, List.mem_cons_of_mem _ hx, rfl⟩
    · rcases List.mem_cons.mp hx with rfl | hx
      · exact Or.inr ⟨x, List.mem_cons_self _ _, rfl⟩
      · rcases ih x hx with h | ⟨y, hy, hxy⟩
        · exact Or.inl h
        · exact Or.inr ⟨y, List.mem_cons_of_mem _ hy, hxy⟩

/-- The embedding update changes no project column. -/
theorem setRecEmbedding_mem_project (recs : List IndexRecord) (sid : Nat) (e : Emb) :
    ∀ x ∈ setRecEmbedding recs sid e, ∃ y ∈ recs, x.project = y.project := by
  intro x hx
  simp only [setRecEmbedding, List.mem_map] at hx
  obtain ⟨y, hy, hxy⟩ := hx
  refine ⟨y, hy, ?_⟩
  subst hxy
  split <;> rfl

/-- The upsert-and-embed stage preserves the closed-set invariant when the
reconciliation project is itself in the closed set. -/
theorem finishIndexing_inv (db1 : DB) (sid : Nat) (model : Str) (version : Int)
    (project : Str) (pres : Bool) (d0 : Json) (e : Option Emb)
    (hp : project ∈ valid_projects) (hobj : ∃ ms, d0 = .obj ms)
    (hinv : ∀ r ∈ db1.conversation_index, ∃ s ∈ valid_projects, r.project = .str s) :
    ∀ r ∈ (finishIndexing db1 sid model version project pres d0 e).2.conversation_index,
      ∃ s ∈ valid_projects, r.project = .str s := by
  obtain ⟨ms, rfl⟩ := hobj
  obtain ⟨ms2, hms2⟩ := fillRequired_obj ms
  obtain ⟨s, hs, hget⟩ := reconcile_valid ms2 project pres hp
  have hrecp : (mkIndexRecord sid model version
      (reconcileProject project pres (fillRequired (.obj ms)))).project = .str s := by
    show (jGet (reconcileProject project pres (fillRequired (.obj ms)))
      (lit "project")).getD .null = .str s
    rw [hms2, hget]
    rfl
  have hup : ∀ x ∈ upsertIndexRecord db1.conversation_index
      (mkIndexRecord sid model version (reconcileProject project pres (fillRequired (.obj ms)))),
      ∃ s2 ∈ valid_projects, x.project = .str s2 := by
    intro x hx
    rcases upsert_mem_project _ _ x hx with h | ⟨y, hy, hxy⟩
    · exact ⟨s, hs, by rw [h, hrecp]⟩
    · obtain ⟨s2, hs2, hy2⟩ := hinv y hy
      exact ⟨s2, hs2, by rw [hxy, hy2]⟩
  intro r hr
  simp only [finishIndexing] at hr
  split at hr
  · split at hr
    · exact hup r hr
    · split at hr
      · obtain ⟨y, hy, hry⟩ := setRecEmbedding_mem_project _ _ _ r hr
        obtain ⟨s2, hs2, hy2⟩ := hup y hy
        exact ⟨s2, hs2, by rw [hry, hy2]⟩
      · exact hup r hr
  · exact hup r hr

/-- The whole response-handling stage preserves the closed-set invariant:
both the parse path and the markdown fallback reconcile against a project
from the closed set before writing. -/
theorem indexFromResponse_inv (db1 : DB) (sid : Nat) (model : Str) (version : Int)
    (project : Str) (pres : Bool) (text : Str) (fb : Bool) (emb : Option Emb)
    (hp : project ∈ valid_projects)
    (hinv : ∀ r ∈ db1.conversation_index, ∃ s ∈ valid_projects, r.project = .str s) :
    ∀ r ∈ (indexFromResponse db1 sid model version project pres text fb
        emb).2.conversation_index,
      ∃ s ∈ valid_projects, r.project = .str s := by
  intro r hr
  simp only [indexFromResponse] at hr
  rcases hpt : parseStage text with _ | d0
  · simp only [hpt] at hr
    split at hr
    · exact hinv r hr
    · split at hr
      · exact finishIndexing_inv _ _ _ _ _ _ _ _ hp (markdown_obj text _ _) hinv r hr
      · exact finishIndexing_inv _ _ _ _ _ _ _ _ hp (markdown_obj text _ _) hinv r hr
  · simp only [hpt] at hr
    obtain ⟨ms, hd0⟩ := parseStage_obj text d0 hpt
    exact finishIndexing_inv _ _ _ _ _ _ _ _ hp ⟨ms, hd0⟩ hinv r hr

/-- Claim C4 confirmed: `index_session` preserves the invariant that every
stored record's project is a string drawn from the closed set
{THN, DAAS, FF, 700B, general}, through the JSON path and the markdown
fallback, with or without `override_project` or `preserve_project`. -/
theorem claim_C4 (db : DB) (sid : Nat) (model : Str) (version : Int)
    (override : Option Str) (preserve : Bool) (llm : LlmOutcome) (fb : Bool)
    (emb : Option Emb)
    (hinv : ∀ r ∈ db.conversation_index, ∃ s ∈ valid_projects, r.project = .str s) :
    ∀ r ∈ (index_session db sid model version override preserve llm fb
        emb).2.conversation_index,
      ∃ s ∈ valid_projects, r.project = .str s := by
  intro r hr
  rcases hf : db.conversations.find? (fun c => c.id == sid) with _ | conv
  · simp only [index_session, hf] at hr
    exact hinv r hr
  · cases override with
    | none =>
      simp only [index_session, hf] at hr
      split at hr
      · exact hinv r hr
      · cases llm with
        | healthFail => exact hinv r hr
        | generateFail => exact hinv r hr
        | success text =>
          exact indexFromResponse_inv _ _ _ _ _ _ _ _ _ (normalize_mem _) hinv r hr
    | some o =>
      cases llm with
      | healthFail =>
        simp only [index_session, hf] at hr
        repeat' split at hr
        all_goals exact hinv r hr
      | generateFail =>
        simp only [index_session, hf] at hr
        repeat' split at hr
        all_goals exact hinv r hr
      | success text =>
        simp only [index_session, hf] at hr
        split at hr
        · repeat' split at hr
          all_goals exact hinv r hr
        · repeat' split at hr
          all_goals
            refine indexFromResponse_inv _ sid model version _ preserve text fb emb
              (normalize_mem _) ?_ r hr
          all_goals exact hinv

/-- Sample state for the C4 witness: one already-indexed general record;
the run carries a lowercase override and an LLM proposal. -/
def c4db : DB :=
  ⟨[⟨1, some (lit "general"), some (lit "Chat")⟩], [⟨1, lit "user", lit "hello"⟩],
    [⟨2, .str (lit "general"), .null, .null, .null, .null, .null, .null, .null,
      lit "m", 1, none⟩]⟩

/-- Witness for C4: the invariant holds before and after a concrete run
with override `daas` and an LLM response tagging `FF`. -/
theorem claim_C4_witness :
    (∀ r ∈ c4db.conversation_index, ∃ s ∈ valid_projects, r.project = .str s) ∧
    (∀ r ∈ (index_session c4db 1 (lit "m") 1 (some (lit "daas")) false
        (.success c2text) false none).2.conversation_index,
      ∃ s ∈ valid_projects, r.project = .str s) :=
  ⟨by decide,
    claim_C4 c4db 1 (lit "m") 1 (some (lit "daas")) false (.success c2text) false none
      (by decide)⟩

/-! ## Claim C5 -/

/-- The C5 input: a JSON object whose `/* ... */` comment spans two
lines. -/
def c5input : Str :=
  lit "\x7b\"a\": 1, /* note\nmore */ \"b\": 2\x7d"

/-- What the extractor actually produces on it. -/
def c5output : Str := lit "\x7b\"a\": 1, e\nmore */ \"b\": 2\x7d"

/-- Claim C5 fails in the code: the comment stripper processes the text
line by line and resets the block-comment state between lines (and its
scan stops one character early on each line), so a `/* ... */` comment
spanning two lines is not removed — the cleaned text keeps the `*/` and a
leaked comment character, and no longer parses as JSON. -/
theorem claim_C5_bug :
    extract_json_from_text c5input = .ok c5output ∧
    strContains c5output (lit "*/") = true ∧
    jsonLoads c5output = none := by decide

/-! ## Claim C9 -/

/-- The DAAS RAG builder emits no per-item notes: its notes list is empty
or a single aggregate line. -/
theorem daas_notes (dist : Emb → Emb → ℚ) (qEmbed : Option Emb)
    (db : List MemRec) (um : Str) (k : Nat) :
    (build_daas_rag_context dist qEmbed db um k).notes = [] ∨
    ∃ n, (build_daas_rag_context dist qEmbed db um k).notes =
      [lit "Retrieved " ++ natStr n ++ lit " dreams via vector similarity search"] := by
  simp only [build_daas_rag_context]
  repeat' split
  all_goals first | exact Or.inl rfl | exact Or.inr ⟨_, rfl⟩

/-- The THN RAG builder emits at most two aggregate notes. -/
theorem thn_notes_le (dist : Emb → Emb → ℚ) (qEmbed : Option Emb)
    (memDb : List MemRec) (codeDb : List CodeChunk) (um : Str) :
    (build_thn_rag_context dist qEmbed memDb codeDb um).notes.length ≤ 2 := by
  simp only [build_thn_rag_context]
  repeat' split
  all_goals simp

/-- The generic path caps the notes at 10. -/
theorem generic_notes_le (mcpNotes : Option (List McpNote)) (memDb : List MemRec)
    (pk : List PKRow) (project um : Str) (lm tn : Nat) :
    ∀ r, build_generic_project_context mcpNotes memDb pk project um lm tn = some r →
      r.notes.length ≤ 10 := by
  intro r h
  simp only [build_generic_project_context] at h
  repeat' split at h
  all_goals
    first
      | exact Option.noConfusion h
      | (obtain rfl := Option.some.inj h; exact List.length_take_le _ _)

/-- Sample memory store for C9: three DAAS records with embeddings. -/
def c9memDb : List MemRec :=
  [⟨1, lit "DAAS", some (lit "Dream A"), .null, some (lit "sa"), none, .null, .null,
      some (lit "ma"), 1, some [1]⟩,
    ⟨2, lit "DAAS", some (lit "Dream B"), .null, some (lit "sb"), none, .null, .null,
      some (lit "mb"), 2, some [2]⟩,
    ⟨3, lit "DAAS", some (lit "Dream C"), .null, some (lit "sc"), none, .null, .null,
      some (lit "mc"), 3, some [3]⟩]

/-- A concrete cosine-distance stand-in that the kernel can evaluate. -/
def c9dist : Emb → Emb → ℚ := fun a _ => ((a.headD 0 : Int) : ℚ)

/-- Claim C9 as stated is false: a DAAS pattern retrieval that returns 3
records produces one aggregate provenance note, not three per-item
lines. -/
theorem claim_C9_counterexample :
    (build_project_context c9dist (some [0]) c9dist none none c9memDb [] []
        (lit "DAAS") (lit "tell me about dreams") 20 5).map (fun r => r.notes) =
      some [lit "Retrieved 3 dreams via vector similarity search"] ∧
    ((sortByDistance c9dist [0] (vectorCandidates c9memDb)).take 3).length = 3 := by
  decide

/-- Claim C9 amended: notes are capped at 10 entries on every path, but
they are per-item only on the generic path — the DAAS RAG path returns no
note or a single aggregate note, never one line per retrieved item. -/
theorem claim_C9_amended (dist : Emb → Emb → ℚ) (qEmbed : Option Emb)
    (distC : Emb → Emb → ℚ) (qEmbedC : Option Emb)
    (mcpNotes : Option (List McpNote)) (memDb : List MemRec)
    (codeDb : List CodeChunk) (pk : List PKRow) (project um : Str) (lm tn : Nat)
    (r : CtxResult)
    (h : build_project_context dist qEmbed distC qEmbedC mcpNotes memDb codeDb pk
      project um lm tn = some r) :
    r.notes.length ≤ 10 ∧
    (project = lit "DAAS" →
      r.notes = [] ∨
      ∃ n, r.notes =
        [lit "Retrieved " ++ natStr n ++ lit " dreams via vector similarity search"]) := by
  simp only [build_project_context] at h
  split at h
  · obtain rfl := Option.some.inj h
    rcases daas_notes dist qEmbed memDb um 3 with h1 | ⟨n, h1⟩
    · rw [h1]
      exact ⟨by simp, fun _ => Or.inl rfl⟩
    · rw [h1]
      exact ⟨by simp, fun _ => Or.inr ⟨n, rfl⟩⟩
  · rename_i hnd
    split at h
    · obtain rfl := Option.some.inj h
      refine ⟨le_trans (thn_notes_le distC qEmbedC memDb codeDb um) (by norm_num), ?_⟩
      intro hp
      exact absurd hp hnd
    · exact ⟨generic_notes_le mcpNotes memDb pk project um lm tn r h,
        fun hp => absurd hp hnd⟩

/-- Witness for C9 amended: the concrete DAAS run with no query embedding
returns an empty result whose notes satisfy the amended bound. -/
theorem claim_C9_amended_witness :
    (build_project_context c9dist none c9dist none none c9memDb [] []
        (lit "DAAS") (lit "hello") 20 5 = some ⟨[], []⟩) ∧
    ((⟨[], []⟩ : CtxResult).notes.length ≤ 10 ∧
      (lit "DAAS" = lit "DAAS" →
        (⟨[], []⟩ : CtxResult).notes = [] ∨
        ∃ n, (⟨[], []⟩ : CtxResult).notes =
          [lit "Retrieved " ++ natStr n ++
            lit " dreams via vector similarity search"])) :=
  ⟨by decide,
    claim_C9_amended c9dist none c9dist none none c9memDb [] [] (lit "DAAS")
      (lit "hello") 20 5 ⟨[], []⟩ (by decide)⟩

/-! ## Claim C7 -/

theorem mostRecent_none : ∀ l : List MemRec, mostRecent l = none → l = []
  | [], _ => rfl
  | r :: rs, h => by
    simp only [mostRecent] at h
    rcases h' : mostRecent rs with _ | m0 <;> simp only [h'] at h <;>
      exact Option.noConfusion h

theorem mostRecent_mem : ∀ (l : List MemRec) (m : MemRec), mostRecent l = some m → m ∈ l
  | [], m, h => Option.noConfusion h
  | r :: rs, m, h => by
    simp only [mostRecent] at h
    rcases h' : mostRecent rs with _ | m0 <;> simp only [h'] at h
    · obtain rfl := Option.some.inj h
      exact List.mem_cons_self _ _
    · obtain hm := Option.some.inj h
      split at hm
      · subst hm
        exact List.mem_cons_of_mem _ (mostRecent_mem rs m0 h')
      · subst hm
        exact List.mem_cons_self _ _

theorem mostRecent_max : ∀ (l : List MemRec) (m : MemRec), mostRecent l = some m →
    ∀ y ∈ l, y.indexed_at ≤ m.indexed_at
  | [], m, h => by exact Option.noConfusion h
  | r :: rs, m, h => by
    intro y hy
    simp only [mostRecent] at h
    rcases h' : mostRecent rs with _ | m0 <;> simp only [h'] at h
    · obtain rfl := Option.some.inj h
      have hrs : rs = [] := mostRecent_none rs h'
      subst hrs
      rcases List.mem_cons.mp hy with rfl | hy0
      · exact Nat.le_refl _
      · cases hy0
    · obtain hm := Option.some.inj h
      have ihmax := mostRecent_max rs m0 h'
      rcases List.mem_cons.mp hy with rfl | hy0
      · split at hm
        · rename_i hgt
          subst hm
          exact Nat.le_of_lt hgt
        · subst hm
          exact Nat.le_refl _
      · split at hm
        · subst hm
          exact ihmax y hy0
        · rename_i hng
          subst hm
          exact Nat.le_trans (ihmax y hy0) (Nat.le_of_not_lt hng)

/-- A detected quoted title is never empty. -/
theorem detect_nonempty (msg qt : Str) (h : detect_quoted_title msg = some qt) :
    qt.isEmpty = false := by
  simp only [detect_quoted_title] at h
  rcases hf : firstQuoted msg with _ | m <;> simp only [hf] at h
  · exact Option.noConfusion h
  · split at h
    · exact Option.noConfusion h
    · rename_i hne
      obtain rfl := Option.some.inj h
      cases hs : pyStrip m with
      | nil => rw [hs] at hne; exact absurd rfl hne
      | cons a l => rfl

/-- Sample store for C7: a single DAAS record titled `aXb`. -/
def c7db : List MemRec :=
  [⟨1, lit "DAAS", some (lit "aXb"), .null, some (lit "s"), none, .null, .null,
    some (lit "m"), 5, none⟩]

def c7dist : Emb → Emb → ℚ := fun _ _ => 0

/-- The C7 message: its quoted candidate `a_b` carries a SQL `_`
wildcard. -/
def c7msg : Str := lit "about \"a_b\" here"

/-- Claim C7 as stated is false: the quoted candidate is pasted into the
`ILIKE` pattern unescaped, so `_` and `%` act as wildcards — the query
`"a_b"` returns the dream titled `aXb` even though that title does not
contain `a_b` as a substring (case-insensitively or otherwise). -/
theorem claim_C7_counterexample :
    (retrieve_daas_context c7dist none c7db c7msg 5).mode = lit "single" ∧
    ((retrieve_daas_context c7dist none c7db c7msg 5).dreams.map
      (fun h => h.session_id)) = [1] ∧
    strContains (lowerStr (lit "aXb")) (lowerStr (lit "a_b")) = false := by decide

/-- Claim C7 amended: with a quoted title present, the result is mode
`single` with at most one dream — the most-recently-indexed DAAS record
whose title matches `%candidate%` under `ILIKE` pattern semantics (the
candidate's `%`, `_` and `\` act as wildcards and escape, not plain
substring containment) — and on no match the dream list is empty with the
guidance message. -/
theorem claim_C7_amended (dist : Emb → Emb → ℚ) (qEmbed : Option Emb)
    (db : List MemRec) (msg qt : Str) (k : Nat)
    (hq : detect_quoted_title msg = some qt) :
    (retrieve_daas_context dist qEmbed db msg k).mode = lit "single" ∧
    (retrieve_daas_context dist qEmbed db msg k).dreams.length ≤ 1 ∧
    (∀ r, retrieve_single_dream db qt = some r →
      (retrieve_daas_context dist qEmbed db msg k).dreams =
        [⟨r.session_id, r.title, r.summary_short, r.memory_snippet, none⟩] ∧
      r ∈ db ∧ r.project = lit "DAAS" ∧ ilikeTitle qt r.title = true ∧
      ∀ y ∈ db, y.project = lit "DAAS" → ilikeTitle qt y.title = true →
        y.indexed_at ≤ r.indexed_at) ∧
    (retrieve_single_dream db qt = none →
      (retrieve_daas_context dist qEmbed db msg k).dreams = [] ∧
      (retrieve_daas_context dist qEmbed db msg k).context =
        lit "No dream found matching " ++ squote :: qt ++ squote ::
          lit ". Did you mean one of these? (Try searching without quotes for pattern matching.)" ∧
      ∀ y ∈ db, y.project = lit "DAAS" → ilikeTitle qt y.title = false) := by
  have hne : qt.isEmpty = false := detect_nonempty msg qt hq
  have hchar : ∀ r, retrieve_single_dream db qt = some r →
      r ∈ db ∧ r.project = lit "DAAS" ∧ ilikeTitle qt r.title = true ∧
      ∀ y ∈ db, y.project = lit "DAAS" → ilikeTitle qt y.title = true →
        y.indexed_at ≤ r.indexed_at := by
    intro r h
    simp only [retrieve_single_dream, hne, Bool.false_eq_true, if_false] at h
    have hmem := mostRecent_mem _ _ h
    have hmax := mostRecent_max _ _ h
    rw [List.mem_filter] at hmem
    obtain ⟨hdb, hf⟩ := hmem
    simp only [Bool.and_eq_true, decide_eq_true_eq] at hf
    refine ⟨hdb, hf.1, hf.2, fun y hy hp hil => ?_⟩
    exact hmax y (List.mem_filter.mpr ⟨hy, by simp [hp, hil]⟩)
  have hnone : retrieve_single_dream db qt = none →
      ∀ y ∈ db, y.project = lit "DAAS" → ilikeTitle qt y.title = false := by
    intro h y hy hp
    simp only [retrieve_single_dream, hne, Bool.false_eq_true, if_false] at h
    have hfe := mostRecent_none _ h
    by_contra hil
    have hyf : y ∈ List.filter
        (fun r => r.project = lit "DAAS" && ilikeTitle qt r.title) db :=
      List.mem_filter.mpr ⟨hy, by simp [hp, eq_true_of_ne_false hil]⟩
    rw [hfe] at hyf
    cases hyf
  rcases hs : retrieve_single_dream db qt with _ | r
  · have hres : retrieve_daas_context dist qEmbed db msg k =
        ⟨lit "single", [],
          lit "No dream found matching " ++ squote :: qt ++ squote ::
            lit ". Did you mean one of these? (Try searching without quotes for pattern matching.)"⟩ := by
      simp only [retrieve_daas_context, hq, hs]
    rw [hres]
    exact ⟨rfl, by simp, fun r hr => Option.noConfusion hr,
      fun _ => ⟨rfl, rfl, hnone hs⟩⟩
  · have hres : retrieve_daas_context dist qEmbed db msg k =
        ⟨lit "single",
          [⟨r.session_id, r.title, r.summary_short, r.memory_snippet, none⟩],
          lit "Dream: " ++ optPyStr r.title ++ '\n' ::
            (optPyStr r.summary_short ++ '\n' :: optPyStr r.memory_snippet)⟩ := by
      simp only [retrieve_daas_context, hq, hs]
    rw [hres]
    refine ⟨rfl, by simp, fun r2 hr2 => ?_,
      fun habs => Option.noConfusion habs⟩
    obtain rfl := Option.some.inj hr2
    exact ⟨rfl, hchar r hs⟩

/-- The C7 witness message quotes the stored title exactly. -/
def c7msgW : Str := lit "tell me about \"aXb\" please"

/-- Witness for C7 amended at the sample store, with the quoted title
matching the stored record. -/
theorem claim_C7_witness :
    detect_quoted_title c7msgW = some (lit "aXb") ∧
    ((retrieve_daas_context c7dist none c7db c7msgW 5).mode = lit "single" ∧
      (retrieve_daas_context c7dist none c7db c7msgW 5).dreams.length ≤ 1 ∧
      (∀ r, retrieve_single_dream c7db (lit "aXb") = some r →
        (retrieve_daas_context c7dist none c7db c7msgW 5).dreams =
          [⟨r.session_id, r.title, r.summary_short, r.memory_snippet, none⟩] ∧
        r ∈ c7db ∧ r.project = lit "DAAS" ∧ ilikeTitle (lit "aXb") r.title = true ∧
        ∀ y ∈ c7db, y.project = lit "DAAS" → ilikeTitle (lit "aXb") y.title = true →
          y.indexed_at ≤ r.indexed_at) ∧
      (retrieve_single_dream c7db (lit "aXb") = none →
        (retrieve_daas_context c7dist none c7db c7msgW 5).dreams = [] ∧
        (retrieve_daas_context c7dist none c7db c7msgW 5).context =
          lit "No dream found matching " ++ squote :: lit "aXb" ++ squote ::
            lit ". Did you mean one of these? (Try searching without quotes for pattern matching.)" ∧
        ∀ y ∈ c7db, y.project = lit "DAAS" → ilikeTitle (lit "aXb") y.title = false)) :=
  ⟨by decide, claim_C7_amended c7dist none c7db c7msgW (lit "aXb") 5 (by decide)⟩

/-! ## Claim C8 -/

/-- Claim C8 confirmed: in pattern mode, with a non-blank query, a query
embedding, and at least `k` DAAS records carrying embeddings, the
retrieval returns exactly `k` hits in non-increasing similarity order,
each hit's similarity is `1 - distance` to a participating record, and
only DAAS records with non-null embeddings participate. -/
theorem claim_C8 (dist : Emb → Emb → ℚ) (qv : Emb) (db : List MemRec)
    (q : Str) (k : Nat)
    (hq : (pyStrip q).isEmpty = false)
    (hk : k ≤ (vectorCandidates db).length) :
    (retrieve_pattern_dreams dist (some qv) db q k).length = k ∧
    List.Pairwise (fun x y => y ≤ x)
      ((retrieve_pattern_dreams dist (some qv) db q k).map
        (fun h => h.similarity.getD 0)) ∧
    ∀ h ∈ retrieve_pattern_dreams dist (some qv) db q k,
      ∃ r ∈ db, r.project = lit "DAAS" ∧ r.embedding.isSome = true ∧
        h.session_id = r.session_id ∧
        h.similarity = some (1 - recDist dist qv r) := by
  have hunf : retrieve_pattern_dreams dist (some qv) db q k =
      ((sortByDistance dist qv (vectorCandidates db)).take k).map (fun r =>
        ⟨r.session_id, r.title, r.summary_short, r.memory_snippet,
          some (1 - recDist dist qv r)⟩) := by
    simp only [retrieve_pattern_dreams, hq, Bool.false_eq_true, if_false]
  rw [hunf]
  simp only [sortByDistance]
  have hperm := List.perm_insertionSort
      (fun a b => recDist dist qv a ≤ recDist dist qv b) (vectorCandidates db)
  refine ⟨?_, ?_, ?_⟩
  · rw [List.length_map, List.length_take, hperm.length_eq]
    exact Nat.min_eq_left hk
  · haveI : IsTotal MemRec (fun a b => recDist dist qv a ≤ recDist dist qv b) :=
      ⟨fun a b => le_total _ _⟩
    haveI : IsTrans MemRec (fun a b => recDist dist qv a ≤ recDist dist qv b) :=
      ⟨fun a b c => le_trans⟩
    have hsort := List.sorted_insertionSort
      (fun a b => recDist dist qv a ≤ recDist dist qv b) (vectorCandidates db)
    have htake : List.Pairwise (fun a b => recDist dist qv a ≤ recDist dist qv b)
        ((List.insertionSort (fun a b => recDist dist qv a ≤ recDist dist qv b)
          (vectorCandidates db)).take k) :=
      List.Pairwise.sublist (List.take_sublist _ _) hsort
    rw [List.pairwise_map, List.pairwise_map]
    refine htake.imp ?_
    intro a b hab
    simpa using sub_le_sub_left hab 1
  · intro h hh
    rw [List.mem_map] at hh
    obtain ⟨r, hr, rfl⟩ := hh
    have hr2 : r ∈ List.insertionSort
        (fun a b => recDist dist qv a ≤ recDist dist qv b) (vectorCandidates db) :=
      (List.take_sublist _ _).subset hr
    have hr3 : r ∈ vectorCandidates db := hperm.mem_iff.mp hr2
    rw [vectorCandidates, List.mem_filter] at hr3
    obtain ⟨hdb, hp⟩ := hr3
    simp only [Bool.and_eq_true, decide_eq_true_eq] at hp
    exact ⟨r, hdb, hp.1, hp.2, rfl, rfl⟩

def c8dist : Emb → Emb → ℚ := fun a _ => ((a.headD 0 : Int) : ℚ)

/-- Sample store for C8: three DAAS records with embeddings and one
without. -/
def c8db : List MemRec :=
  [⟨1, lit "DAAS", some (lit "A"), .null, none, none, .null, .null, none, 1, some [3]⟩,
    ⟨2, lit "DAAS", some (lit "B"), .null, none, none, .null, .null, none, 2, some [1]⟩,
    ⟨3, lit "DAAS", some (lit "C"), .null, none, none, .null, .null, none, 3, none⟩,
    ⟨4, lit "DAAS", some (lit "D"), .null, none, none, .null, .null, none, 4, some [2]⟩]

/-- Witness for C8: two hits requested from the three embedded records. -/
theorem claim_C8_witness :
    ((pyStrip (lit "dreams about water")).isEmpty = false ∧
      2 ≤ (vectorCandidates c8db).length) ∧
    ((retrieve_pattern_dreams c8dist (some [0]) c8db (lit "dreams about water") 2).length =
        2 ∧
      List.Pairwise (fun x y => y ≤ x)
        ((retrieve_pattern_dreams c8dist (some [0]) c8db (lit "dreams about water") 2).map
          (fun h => h.similarity.getD 0)) ∧
      ∀ h ∈ retrieve_pattern_dreams c8dist (some [0]) c8db (lit "dreams about water") 2,
        ∃ r ∈ c8db, r.project = lit "DAAS" ∧ r.embedding.isSome = true ∧
          h.session_id = r.session_id ∧
          h.similarity = some (1 - recDist c8dist [0] r)) :=
  ⟨⟨by decide, by decide⟩,
    claim_C8 c8dist [0] c8db (lit "dreams about water") 2 (by decide) (by decide)⟩

/-! ## Claim C6 -/

/-- The C6 embedded JSON document: `\x7b"a": "\x7d"\x7d` — valid JSON whose
string value is a closing brace. -/
def c6json : Str := lit "\x7b\"a\": \"\x7d\"\x7d"

/-- The C6 input: that document with text around it. -/
def c6input : Str := lit "text before " ++ c6json ++ lit " after"

/-- Claim C6 as stated is false: the brace scan counts the brace inside
the string value, closes early, and returns a slice that no JSON parser
accepts, although the embedded document is valid JSON. -/
theorem claim_C6_counterexample :
    (jsonLoads c6json).isSome = true ∧
    extract_json_from_text c6input = .ok (lit "\x7b\"a\": \"\x7d") ∧
    jsonLoads (lit "\x7b\"a\": \"\x7d") = none := by decide

/-! ### A canonical renderer for JSON values, and the tame fragment

The spec's extractor promise is refuted by braces inside strings; the
amended claim restricts the embedded document to values whose rendering
keeps the scan honest: strings and keys hold printable characters other
than quote, backslash, brace, backtick and slash, and numbers are plain
decimal integers. -/

mutual
/-- Canonical rendering (no insignificant whitespace). -/
def renderJson : Json → Str
  | .null => lit "null"
  | .jtrue => lit "true"
  | .jfalse => lit "false"
  | .num lex => lex
  | .str s => '"' :: s ++ ['"']
  | .arr xs => '[' :: renderList xs ++ [']']
  | .obj ms => lbrace :: renderMembers ms ++ [rbrace]
def renderList : JsonList → Str
  | .nil => []
  | .cons h .nil => renderJson h
  | .cons h (.cons h2 t) => renderJson h ++ ',' :: renderList (.cons h2 t)
def renderMembers : JsonMembers → Str
  | .nil => []
  | .cons k v .nil => '"' :: k ++ '"' :: ':' :: renderJson v
  | .cons k v (.cons k2 v2 t) =>
    '"' :: k ++ '"' :: ':' :: renderJson v ++ ',' :: renderMembers (.cons k2 v2 t)
end

/-- Characters allowed inside tame strings and keys. -/
def tameStrChar (c : Char) : Bool :=
  32 ≤ c.toNat && c ≠ '"' && c ≠ '\\' && c ≠ lbrace && c ≠ rbrace && c ≠ '`' && c ≠ '/'

/-- Tame number lexemes: plain decimal integers. -/
def tameNum (lex : Str) : Bool :=
  match lex with
  | [] => false
  | c :: cs => (c = '0' && cs.isEmpty) || (c.isDigit && c ≠ '0' && cs.all Char.isDigit)

mutual
def tameJson : Json → Bool
  | .null => true
  | .jtrue => true
  | .jfalse => true
  | .num lex => tameNum lex
  | .str s => s.all tameStrChar
  | .arr xs => tameList xs
  | .obj ms => tameMembers ms
def tameList : JsonList → Bool
  | .nil => true
  | .cons h t => tameJson h && tameList t
def tameMembers : JsonMembers → Bool
  | .nil => true
  | .cons k v t => k.all tameStrChar && tameJson v && tameMembers t && (t.get k).isNone
end

/-- Characters that keep the extractor's other stages inert: no fence
backtick, no newline, no comment slash. -/
def renderSafe (c : Char) : Bool := c ≠ '`' && c ≠ '\n' && c ≠ '\r' && c ≠ '/'

theorem digit_renderSafe {c : Char} (h : c.isDigit = true) : renderSafe c = true := by
  simp only [Char.isDigit, Bool.and_eq_true, decide_eq_true_eq] at h
  simp only [renderSafe, Bool.and_eq_true, decide_eq_true_eq, ne_eq]
  refine ⟨⟨⟨?_, ?_⟩, ?_⟩, ?_⟩ <;> rintro rfl <;> revert h <;> decide

theorem tameStrChar_renderSafe {c : Char} (h : tameStrChar c = true) : renderSafe c = true := by
  simp only [tameStrChar, Bool.and_eq_true, decide_eq_true_eq] at h
  obtain ⟨⟨⟨⟨⟨⟨h32, _⟩, _⟩, _⟩, _⟩, hbt⟩, hsl⟩ := h
  simp only [renderSafe, Bool.and_eq_true, decide_eq_true_eq, ne_eq]
  refine ⟨⟨⟨hbt, ?_⟩, ?_⟩, hsl⟩ <;> rintro rfl <;> revert h32 <;> decide

theorem tameNum_digits {lex : Str} (h : tameNum lex = true) :
    ∀ c ∈ lex, c.isDigit = true := by
  match lex with
  | [] => exact absurd h (by decide)
  | c :: cs =>
    intro d hd
    simp only [tameNum, Bool.or_eq_true, Bool.and_eq_true, decide_eq_true_eq] at h
    rcases List.mem_cons.mp hd with rfl | hd2
    · rcases h with ⟨h0, _⟩ | ⟨⟨hdig, _⟩, _⟩
      · rw [h0]; decide
      · exact hdig
    · rcases h with ⟨_, hnil⟩ | ⟨_, hall⟩
      · rw [List.isEmpty_iff] at hnil
        rw [hnil] at hd2
        cases hd2
      · exact List.all_eq_true.mp hall d hd2

mutual
theorem renderJson_safe : ∀ v : Json, tameJson v = true →
    (renderJson v).all renderSafe = true
  | .null, _ => by decide
  | .jtrue, _ => by decide
  | .jfalse, _ => by decide
  | .num lex, h =>
    List.all_eq_true.mpr fun c hc => digit_renderSafe (tameNum_digits h c hc)
  | .str s, h => by
    have hs : s.all renderSafe = true :=
      List.all_eq_true.mpr fun c hc => tameStrChar_renderSafe (List.all_eq_true.mp h c hc)
    simp [renderJson, List.all_cons, List.all_append, hs] <;> decide
  | .arr xs, h => by
    have hs := renderList_safe xs h
    simp [renderJson, List.all_cons, List.all_append, hs] <;> decide
  | .obj ms, h => by
    have hs := renderMembers_safe ms h
    simp [renderJson, List.all_cons, List.all_append, hs] <;> decide
theorem renderList_safe : ∀ xs : JsonList, tameList xs = true →
    (renderList xs).all renderSafe = true
  | .nil, _ => by decide
  | .cons h0 .nil, h => by
    simp only [tameList, Bool.and_eq_true] at h
    simpa [renderList] using renderJson_safe h0 h.1
  | .cons h0 (.cons h2 t), h => by
    simp only [tameList, Bool.and_eq_true] at h
    have h1 := renderJson_safe h0 h.1
    have h2s := renderList_safe (.cons h2 t) (by simp [tameList, h.2.1, h.2.2])
    simp [renderList, List.all_append, List.all_cons, h1, h2s] <;> decide
theorem renderMembers_safe : ∀ ms : JsonMembers, tameMembers ms = true →
    (renderMembers ms).all renderSafe = true
  | .nil, _ => by decide
  | .cons k v .nil, h => by
    simp only [tameMembers, Bool.and_eq_true] at h
    have hk : k.all renderSafe = true :=
      List.all_eq_true.mpr fun c hc =>
        tameStrChar_renderSafe (List.all_eq_true.mp h.1.1.1 c hc)
    have hv := renderJson_safe v h.1.1.2
    simp [renderMembers, List.all_cons, List.all_append, hk, hv] <;> decide
  | .cons k v (.cons k2 v2 t), h => by
    simp only [tameMembers, Bool.and_eq_true] at h
    have hk : k.all renderSafe = true :=
      List.all_eq_true.mpr fun c hc =>
        tameStrChar_renderSafe (List.all_eq_true.mp h.1.1.1 c hc)
    have hv := renderJson_safe v h.1.1.2
    have ht := renderMembers_safe (.cons k2 v2 t)
      (by simp [tameMembers, h.1.2.1.1.1, h.1.2.1.1.2, h.1.2.1.2, h.1.2.2])
    simp [renderMembers, List.all_cons, List.all_append, hk, hv, ht] <;> decide
end

/-! ### The brace scan walks over a tame rendering -/

def noBrace (c : Char) : Bool := c ≠ lbrace && c ≠ rbrace

theorem digit_noBrace {c : Char} (h : c.isDigit = true) : noBrace c = true := by
  simp only [Char.isDigit, Bool.and_eq_true, decide_eq_true_eq] at h
  simp only [noBrace, Bool.and_eq_true, decide_eq_true_eq, ne_eq]
  refine ⟨?_, ?_⟩ <;> rintro rfl <;> revert h <;> decide

theorem tameStrChar_noBrace {c : Char} (h : tameStrChar c = true) : noBrace c = true := by
  simp only [tameStrChar, Bool.and_eq_true, decide_eq_true_eq] at h
  simp only [noBrace, Bool.and_eq_true, decide_eq_true_eq, ne_eq]
  exact ⟨h.1.1.1.2, h.1.1.2⟩

/-- One scan step over a non-brace character. -/
theorem fcb_step {c : Char} (h1 : ¬c = lbrace) (h2 : ¬c = rbrace)
    (rest : Str) (k : Int) (i : Nat) :
    findClosingBrace (c :: rest) k i = findClosingBrace rest k (i + 1) := by
  rw [findClosingBrace, if_neg h1, if_neg h2]

theorem fcb_open (rest : Str) (k : Int) (i : Nat) :
    findClosingBrace (lbrace :: rest) k i = findClosingBrace rest (k + 1) (i + 1) := by
  rw [findClosingBrace, if_pos rfl]

theorem fcb_close (rest : Str) (k : Int) (i : Nat) (h : ¬k - 1 = 0) :
    findClosingBrace (rbrace :: rest) k i = findClosingBrace rest (k - 1) (i + 1) := by
  rw [findClosingBrace, if_neg (by decide), if_pos rfl, if_neg h]

theorem fcb_close_done (rest : Str) (k : Int) (i : Nat) (h : k - 1 = 0) :
    findClosingBrace (rbrace :: rest) k i = some i := by
  rw [findClosingBrace, if_neg (by decide), if_pos rfl, if_pos h]

/-- Scanning over brace-free text only advances the index. -/
theorem findClosingBrace_skip : ∀ (s rest : Str) (k : Int) (i : Nat),
    s.all noBrace = true →
    findClosingBrace (s ++ rest) k i = findClosingBrace rest k (i + s.length)
  | [], rest, k, i, _ => by simp
  | c :: s, rest, k, i, h => by
    simp only [List.all_cons, Bool.and_eq_true] at h
    have hc := h.1
    simp only [noBrace, Bool.and_eq_true, decide_eq_true_eq, ne_eq] at hc
    simp only [List.cons_append]
    rw [fcb_step hc.1 hc.2]
    rw [findClosingBrace_skip s rest k (i + 1) h.2]
    congr 1
    simp only [List.length_cons]
    omega

mutual
/-- Scanning a whole tame value with a positive outstanding count passes
through without closing. -/
theorem scanJson : ∀ (v : Json), tameJson v = true → ∀ (rest : Str) (k : Int) (i : Nat),
    1 ≤ k →
    findClosingBrace (renderJson v ++ rest) k i =
      findClosingBrace rest k (i + (renderJson v).length)
  | .null, _, rest, k, i, _ => findClosingBrace_skip _ _ _ _ (by decide)
  | .jtrue, _, rest, k, i, _ => findClosingBrace_skip _ _ _ _ (by decide)
  | .jfalse, _, rest, k, i, _ => findClosingBrace_skip _ _ _ _ (by decide)
  | .num lex, h, rest, k, i, _ =>
    findClosingBrace_skip _ _ _ _ (List.all_eq_true.mpr fun c hc =>
      digit_noBrace (tameNum_digits h c hc))
  | .str s, h, rest, k, i, _ =>
    findClosingBrace_skip _ _ _ _ (by
      have hs : s.all noBrace = true :=
        List.all_eq_true.mpr fun c hc => tameStrChar_noBrace (List.all_eq_true.mp h c hc)
      simp [renderJson, List.all_cons, List.all_append, hs] <;> decide)
  | .arr xs, h, rest, k, i, hk => by
    simp only [renderJson, List.cons_append, List.append_assoc, List.singleton_append,
      List.nil_append]
    rw [fcb_step (by decide) (by decide)]
    rw [scanList xs h (']' :: rest) k (i + 1) hk]
    rw [fcb_step (by decide) (by decide)]
    congr 1
    simp only [List.length_cons, List.length_append, List.length_nil]
    omega
  | .obj ms, h, rest, k, i, hk => by
    simp only [renderJson, List.cons_append, List.append_assoc, List.singleton_append,
      List.nil_append]
    rw [fcb_open]
    rw [scanMembers ms h (rbrace :: rest) (k + 1) (i + 1) (by omega)]
    rw [fcb_close _ _ _ (by omega)]
    have hkk : k + 1 - 1 = k := by omega
    rw [hkk]
    congr 1
    simp only [List.length_cons, List.length_append, List.length_nil]
    omega
theorem scanList : ∀ (xs : JsonList), tameList xs = true → ∀ (rest : Str) (k : Int)
    (i : Nat), 1 ≤ k →
    findClosingBrace (renderList xs ++ rest) k i =
      findClosingBrace rest k (i + (renderList xs).length)
  | .nil, _, rest, k, i, _ => by simp [renderList]
  | .cons h0 .nil, h, rest, k, i, hk => by
    simp only [tameList, Bool.and_eq_true] at h
    simpa [renderList] using scanJson h0 h.1 rest k i hk
  | .cons h0 (.cons h2 t), h, rest, k, i, hk => by
    simp only [tameList, Bool.and_eq_true] at h
    simp only [renderList, List.append_assoc, List.cons_append, List.nil_append]
    rw [scanJson h0 h.1 _ k i hk]
    rw [fcb_step (by decide) (by decide)]
    rw [scanList (.cons h2 t) (by simp [tameList, h.2.1, h.2.2]) rest k _ hk]
    congr 1
    simp only [List.length_append, List.length_cons, List.length_nil]
    omega
theorem scanMembers : ∀ (ms : JsonMembers), tameMembers ms = true → ∀ (rest : Str)
    (k : Int) (i : Nat), 1 ≤ k →
    findClosingBrace (renderMembers ms ++ rest) k i =
      findClosingBrace rest k (i + (renderMembers ms).length)
  | .nil, _, rest, k, i, _ => by simp [renderMembers]
  | .cons kk v .nil, h, rest, k, i, hk => by
    simp only [tameMembers, Bool.and_eq_true] at h
    have hkey : kk.all noBrace = true :=
      List.all_eq_true.mpr fun c hc => tameStrChar_noBrace (List.all_eq_true.mp h.1.1.1 c hc)
    simp only [renderMembers, List.append_assoc, List.cons_append, List.nil_append]
    rw [fcb_step (by decide) (by decide)]
    rw [findClosingBrace_skip kk _ k _ hkey]
    rw [fcb_step (by decide) (by decide)]
    rw [fcb_step (by decide) (by decide)]
    rw [scanJson v h.1.1.2 rest k _ hk]
    congr 1
    simp only [List.length_append, List.length_cons, List.length_nil]
    omega
  | .cons kk v (.cons k2 v2 t), h, rest, k, i, hk => by
    simp only [tameMembers, Bool.and_eq_true] at h
    have hkey : kk.all noBrace = true :=
      List.all_eq_true.mpr fun c hc => tameStrChar_noBrace (List.all_eq_true.mp h.1.1.1 c hc)
    simp only [renderMembers, List.append_assoc, List.cons_append, List.nil_append]
    rw [fcb_step (by decide) (by decide)]
    rw [findClosingBrace_skip kk _ k _ hkey]
    rw [fcb_step (by decide) (by decide)]
    rw [fcb_step (by decide) (by decide)]
    rw [scanJson v h.1.1.2 _ k _ hk]
    rw [fcb_step (by decide) (by decide)]
    rw [scanMembers (.cons k2 v2 t)
      (by simp [tameMembers, h.1.2.1.1.1, h.1.2.1.1.2, h.1.2.1.2, h.1.2.2]) rest k _ hk]
    congr 1
    simp only [List.length_append, List.length_cons, List.length_nil]
    omega
end

/-- The scan started at a tame object finds exactly its final brace. -/
theorem findClosingBrace_render (ms : JsonMembers) (h : tameMembers ms = true)
    (suf : Str) (i : Nat) :
    findClosingBrace (renderJson (.obj ms) ++ suf) 0 i =
      some (i + (renderJson (.obj ms)).length - 1) := by
  simp only [renderJson, List.cons_append, List.append_assoc, List.singleton_append,
    List.nil_append]
  rw [fcb_open]
  rw [scanMembers ms h (rbrace :: suf) (0 + 1) (i + 1) (by omega)]
  rw [fcb_close_done _ _ _ (by omega)]
  congr 1
  simp only [List.length_cons, List.length_append, List.length_nil]
  omega

/-! ### The other extractor stages are inert on backtick-free input -/

theorem strStarts_head : ∀ (p s : Str) (c : Char), strStarts (c :: p) s = true →
    ∃ r, s = c :: r := by
  intro p s c h
  cases s with
  | nil => exact absurd h (by simp [strStarts])
  | cons d r =>
    simp only [strStarts, Bool.and_eq_true, decide_eq_true_eq] at h
    exact ⟨r, by rw [h.1]⟩

theorem fence3_starts_btick {s : Str} (h : strStarts (lit "```") s = true) :
    ∃ r, s = '\x60' :: r :=
  strStarts_head _ _ _ h

theorem fence7_starts_btick {s : Str} (h : strStarts (lit "```json") s = true) :
    ∃ r, s = '\x60' :: r :=
  strStarts_head _ _ _ h

theorem searchFence1_none : ∀ s : Str, (∀ c ∈ s, c ≠ '\x60') → searchFence1 s = none
  | [], _ => rfl
  | c :: rest, h => by
    simp only [searchFence1]
    rw [if_neg ?_]
    · exact searchFence1_none rest fun d hd => h d (List.mem_cons_of_mem _ hd)
    · intro habs
      obtain ⟨r, hr⟩ := fence7_starts_btick habs
      have := h c (List.mem_cons_self _ _)
      rw [List.cons_eq_cons] at hr
      exact this hr.1

theorem searchFence2_none : ∀ s : Str, (∀ c ∈ s, c ≠ '\x60') → searchFence2 s = none
  | [], _ => rfl
  | c :: rest, h => by
    simp only [searchFence2]
    rw [if_neg ?_]
    · exact searchFence2_none rest fun d hd => h d (List.mem_cons_of_mem _ hd)
    · intro habs
      obtain ⟨r, hr⟩ := fence3_starts_btick habs
      have := h c (List.mem_cons_self _ _)
      rw [List.cons_eq_cons] at hr
      exact this hr.1

theorem strStarts_fence3_false (s : Str) (h : ∀ c ∈ s, c ≠ '\x60') :
    strStarts (lit "```") s = false := by
  rw [Bool.eq_false_iff]
  intro habs
  obtain ⟨r, hr⟩ := fence3_starts_btick habs
  subst hr
  exact h _ (List.mem_cons_self _ _) rfl

theorem strStarts_fence7_false (s : Str) (h : ∀ c ∈ s, c ≠ '\x60') :
    strStarts (lit "```json") s = false := by
  rw [Bool.eq_false_iff]
  intro habs
  obtain ⟨r, hr⟩ := fence7_starts_btick habs
  subst hr
  exact h _ (List.mem_cons_self _ _) rfl

theorem pyFindChar_first : ∀ (pre : Str) (rest : Str), (∀ c ∈ pre, c ≠ lbrace) →
    pyFindChar lbrace (pre ++ lbrace :: rest) = some pre.length
  | [], rest, _ => by simp [pyFindChar]
  | c :: pre, rest, h => by
    simp only [List.cons_append, pyFindChar]
    rw [if_neg (h c (List.mem_cons_self _ _))]
    simp only [List.append_eq]
    rw [pyFindChar_first pre rest fun d hd => h d (List.mem_cons_of_mem _ hd)]
    rfl

theorem pyRstrip_id (s : Str) (h : isPySpace (s.getLastD lbrace) = false) :
    pyRstrip s = s := by
  unfold pyRstrip
  cases hs : s.reverse with
  | nil =>
    simp [List.reverse_eq_nil_iff.mp hs]
  | cons d t =>
    have hd : s.getLast? = some d := by
      rw [← List.head?_reverse, hs]
      rfl
    have hdl : isPySpace d = false := by
      rw [List.getLastD_eq_getLast?, hd] at h
      exact h
    rw [List.dropWhile_cons, if_neg (by simp [hdl])]
    rw [show (d :: t : Str) = s.reverse from hs.symm, List.reverse_reverse]

theorem pyStrip_id (s : Str) (h1 : isPySpace (s.headD lbrace) = false)
    (h2 : isPySpace (s.getLastD lbrace) = false) : pyStrip s = s := by
  cases s with
  | nil => rfl
  | cons c x =>
    unfold pyStrip
    rw [pyLstrip_cons_nonws c x h1, pyRstrip_id _ h2]

theorem splitOnChar_no_sep : ∀ (sep : Char) (s : Str), (∀ c ∈ s, c ≠ sep) →
    splitOnChar sep s = [s]
  | _, [], _ => rfl
  | sep, c :: rest, h => by
    simp only [splitOnChar]
    rw [splitOnChar_no_sep sep rest fun d hd => h d (List.mem_cons_of_mem _ hd)]
    dsimp only
    rw [if_neg (h c (List.mem_cons_self _ _))]

theorem cleanChars_no_slash : ∀ (s : Str) (inS esc : Bool), (∀ c ∈ s, c ≠ '/') →
    (cleanChars s.length s inS esc).1 = s
  | [], _, _, _ => rfl
  | c :: rest, inS, esc, h => by
    have hc : c ≠ '/' := h c (List.mem_cons_self _ _)
    have ht : ∀ d ∈ rest, d ≠ '/' := fun d hd => h d (List.mem_cons_of_mem _ hd)
    have hsl : (decide (c = '/') && rest.head?.any (fun x => x == '/')) = false := by
      simp [hc]
    have hsl2 : (decide (c = '/') && rest.head?.any (fun x => x == '*')) = false := by
      simp [hc]
    have ih : ∀ inS2 esc2, (cleanChars rest.length rest inS2 esc2).1 = rest :=
      fun inS2 esc2 => cleanChars_no_slash rest inS2 esc2 ht
    show (cleanChars (rest.length + 1) (c :: rest) inS esc).1 = c :: rest
    simp only [cleanChars]
    split_ifs <;>
      first
        | simp only [ih]
        | (rename_i hy
           exact absurd hy (by simp [hc]))
  termination_by s => s.length

theorem renderSafe_btick {c : Char} (h : renderSafe c = true) : c ≠ '\x60' := by
  simp only [renderSafe, Bool.and_eq_true, decide_eq_true_eq, ne_eq] at h
  exact h.1.1.1

theorem renderSafe_nl {c : Char} (h : renderSafe c = true) : c ≠ '\n' := by
  simp only [renderSafe, Bool.and_eq_true, decide_eq_true_eq, ne_eq] at h
  exact h.1.1.2

theorem renderSafe_slash {c : Char} (h : renderSafe c = true) : c ≠ '/' := by
  simp only [renderSafe, Bool.and_eq_true, decide_eq_true_eq, ne_eq] at h
  exact h.2

/-- Comment removal is the identity on a single-line, slash-free slice that
starts with a brace and ends with one. -/
theorem removeJsonComments_id (s : Str)
    (hnl : ∀ c ∈ s, c ≠ '\n') (hsl : ∀ c ∈ s, c ≠ '/')
    (h1 : isPySpace (s.headD lbrace) = false)
    (h2 : isPySpace (s.getLastD lbrace) = false) (hne : s ≠ []) :
    removeJsonComments s = s := by
  unfold removeJsonComments
  rw [splitOnChar_no_sep '\n' s hnl]
  simp only [cleanLinesLoop, cleanLine]
  rw [cleanChars_no_slash s false false hsl]
  rw [pyRstrip_id s h2]
  rw [if_neg (by simpa [List.isEmpty_iff] using hne)]
  show pyStrip s = s
  exact pyStrip_id s h1 h2

/-- The extractor returns exactly the embedded tame object. -/
theorem extract_render (pre suf : Str) (ms : JsonMembers)
    (htame : tameMembers ms = true)
    (hpre : ∀ c ∈ pre, c ≠ '\x60' ∧ c ≠ lbrace)
    (hpreh : isPySpace (pre.headD lbrace) = false)
    (hsuf : ∀ c ∈ suf, c ≠ '\x60')
    (hsufl : isPySpace (suf.getLastD rbrace) = false) :
    extract_json_from_text (pre ++ renderJson (.obj ms) ++ suf) =
      .ok (renderJson (.obj ms)) := by
  have htameJ : tameJson (.obj ms) = true := htame
  have hRsafe : ∀ c ∈ renderJson (.obj ms), renderSafe c = true :=
    fun c hc => List.all_eq_true.mp (renderJson_safe (.obj ms) htameJ) c hc
  have hnotick : ∀ c ∈ pre ++ renderJson (.obj ms) ++ suf, c ≠ '\x60' := by
    intro c hc
    rcases List.mem_append.mp hc with hc | hc
    · rcases List.mem_append.mp hc with hc | hc
      · exact (hpre c hc).1
      · exact renderSafe_btick (hRsafe c hc)
    · exact hsuf c hc
  have hhead : isPySpace ((pre ++ renderJson (.obj ms) ++ suf).headD lbrace) = false := by
    cases pre with
    | nil => rfl
    | cons c p => exact hpreh
  have hlast : isPySpace ((pre ++ renderJson (.obj ms) ++ suf).getLastD lbrace) = false := by
    rcases List.eq_nil_or_concat suf with rfl | ⟨ys, y, rfl⟩
    · have he : pre ++ renderJson (.obj ms) ++ ([] : Str) =
          (pre ++ (lbrace :: renderMembers ms)) ++ [rbrace] := by
        simp [renderJson, List.append_assoc]
      rw [he, List.getLastD_concat]
      rfl
    · simp only [List.concat_eq_append] at hsufl ⊢
      have he : pre ++ renderJson (.obj ms) ++ (ys ++ [y]) =
          (pre ++ renderJson (.obj ms) ++ ys) ++ [y] := by
        simp [List.append_assoc]
      rw [he, List.getLastD_concat]
      rw [List.getLastD_concat] at hsufl
      exact hsufl
  have hstrip : pyStrip (pre ++ renderJson (.obj ms) ++ suf) =
      pre ++ renderJson (.obj ms) ++ suf := pyStrip_id _ hhead hlast
  have hf1 := searchFence1_none _ hnotick
  have hf2 := searchFence2_none _ hnotick
  have hs3 := strStarts_fence3_false _ hnotick
  have hs7 := strStarts_fence7_false _ hnotick
  have hfind : pyFindChar lbrace (pre ++ renderJson (.obj ms) ++ suf) = some pre.length := by
    have he : pre ++ renderJson (.obj ms) ++ suf =
        pre ++ lbrace :: (renderMembers ms ++ rbrace :: suf) := by
      simp [renderJson, List.append_assoc]
    rw [he]
    exact pyFindChar_first pre _ (fun c hc => (hpre c hc).2)
  have hdrop : (pre ++ renderJson (.obj ms) ++ suf).drop pre.length =
      renderJson (.obj ms) ++ suf := by
    rw [List.append_assoc]
    exact List.drop_left _ _
  have hscan : findClosingBrace (renderJson (.obj ms) ++ suf) 0 pre.length =
      some (pre.length + (renderJson (.obj ms)).length - 1) :=
    findClosingBrace_render ms htame suf pre.length
  have hRlen : 1 ≤ (renderJson (.obj ms)).length := by
    show 1 ≤ (lbrace :: (renderMembers ms ++ [rbrace])).length
    simp
  have htake : (renderJson (.obj ms) ++ suf).take
      (pre.length + (renderJson (.obj ms)).length - 1 + 1 - pre.length) =
      renderJson (.obj ms) := by
    have harith : pre.length + (renderJson (.obj ms)).length - 1 + 1 - pre.length =
        (renderJson (.obj ms)).length := by omega
    rw [harith]
    exact List.take_left _ _
  have hclean : removeJsonComments (renderJson (.obj ms)) = renderJson (.obj ms) := by
    refine removeJsonComments_id _ (fun c hc => renderSafe_nl (hRsafe c hc))
      (fun c hc => renderSafe_slash (hRsafe c hc)) rfl ?_ ?_
    · have he : renderJson (.obj ms) = (lbrace :: renderMembers ms) ++ [rbrace] := by
        simp [renderJson]
      rw [he, List.getLastD_concat]
      rfl
    · show lbrace :: (renderMembers ms ++ [rbrace]) ≠ []
      simp
  simp only [extract_json_from_text, hstrip, hf1, hf2, hs3, hs7, hfind, hdrop, hscan,
    htake, hclean, eq_self_iff_true, if_true, Bool.false_eq_true, if_false]

/-! ### The strict parser accepts a tame rendering -/

theorem parseStrBody_tame : ∀ (s rest : Str), (∀ c ∈ s, tameStrChar c = true) →
    parseStrBody (s ++ '"' :: rest) = some (s, rest)
  | [], rest, _ => by
    show parseStrBody ('"' :: rest) = some ([], rest)
    rw [parseStrBody.eq_def]
    dsimp only
    rw [if_pos rfl]
  | c :: s, rest, h => by
    have hc := h c (List.mem_cons_self _ _)
    simp only [tameStrChar, Bool.and_eq_true, decide_eq_true_eq] at hc
    simp only [List.cons_append]
    rw [parseStrBody.eq_def]
    dsimp only
    rw [if_neg hc.1.1.1.1.1.2, if_neg hc.1.1.1.1.2,
      if_neg (by omega : ¬c.toNat < 32)]
    rw [parseStrBody_tame s rest fun d hd => h d (List.mem_cons_of_mem _ hd)]

/-- What may follow a rendered value: a separator or the end. -/
def sepOk : Str → Bool
  | [] => true
  | c :: _ => c = ',' || c = ']' || c = rbrace

theorem sepOk_head (rest : Str) (h : sepOk rest = true) :
    ∀ c ∈ rest.take 1, c.isDigit = false ∧ c ≠ '.' ∧ c ≠ 'e' ∧ c ≠ 'E' := by
  cases rest with
  | nil => intro c hc; cases hc
  | cons c r =>
    intro d hd
    simp only [List.take, List.take_zero, List.mem_singleton] at hd
    subst hd
    simp only [sepOk, Bool.or_eq_true, decide_eq_true_eq] at h
    rcases h with (rfl | rfl) | rfl <;> exact ⟨by decide, by decide, by decide, by decide⟩

theorem takeWhile_digits : ∀ (ds rest : Str), (∀ c ∈ ds, c.isDigit = true) →
    (∀ c ∈ rest.take 1, c.isDigit = false) →
    (ds ++ rest).takeWhile Char.isDigit = ds
  | [], rest, _, hr => by
    cases rest with
    | nil => rfl
    | cons c r =>
      have hc := hr c (by simp [List.take])
      simp [List.takeWhile_cons, hc]
  | d :: ds, rest, hds, hr => by
    have hd := hds d (List.mem_cons_self _ _)
    simp only [List.cons_append, List.takeWhile_cons, hd, if_true]
    rw [takeWhile_digits ds rest (fun c hc => hds c (List.mem_cons_of_mem _ hc)) hr]

theorem dropWhile_digits : ∀ (ds rest : Str), (∀ c ∈ ds, c.isDigit = true) →
    (∀ c ∈ rest.take 1, c.isDigit = false) →
    (ds ++ rest).dropWhile Char.isDigit = rest
  | [], rest, _, hr => by
    cases rest with
    | nil => rfl
    | cons c r =>
      have hc := hr c (by simp [List.take])
      simp [List.dropWhile_cons, hc]
  | d :: ds, rest, hds, hr => by
    have hd := hds d (List.mem_cons_self _ _)
    simp only [List.cons_append, List.dropWhile_cons, hd, if_true]
    exact dropWhile_digits ds rest (fun c hc => hds c (List.mem_cons_of_mem _ hc)) hr

theorem span_digits (ds rest : Str) (hds : ∀ c ∈ ds, c.isDigit = true)
    (hr : ∀ c ∈ rest.take 1, c.isDigit = false) :
    (ds ++ rest).span Char.isDigit = (ds, rest) := by
  rw [List.span_eq_take_drop, takeWhile_digits ds rest hds hr,
    dropWhile_digits ds rest hds hr]

theorem digit_ne_specials {c : Char} (h : c.isDigit = true) :
    c ≠ '-' ∧ c ≠ '"' ∧ c ≠ lbrace ∧ c ≠ '[' ∧ c ≠ 't' ∧ c ≠ 'f' ∧ c ≠ 'n' := by
  simp only [Char.isDigit, Bool.and_eq_true, decide_eq_true_eq] at h
  refine ⟨?_, ?_, ?_, ?_, ?_, ?_, ?_⟩ <;> rintro rfl <;> revert h <;> decide

theorem parseNumLex_tame (lex rest : Str) (h : tameNum lex = true)
    (hsep : sepOk rest = true) :
    parseNumLex (lex ++ rest) = some (lex, rest) := by
  have hr := sepOk_head rest hsep
  match lex, h with
  | c :: cs, h =>
  have hdigits := tameNum_digits h
  have hc : c.isDigit = true := hdigits c (List.mem_cons_self _ _)
  have hcs : ∀ d ∈ cs, d.isDigit = true := fun d hd => hdigits d (List.mem_cons_of_mem _ hd)
  have hcne : c ≠ '-' := (digit_ne_specials hc).1
  simp only [List.cons_append, parseNumLex]
  split
  · rename_i heq
    split at heq
    · rename_i r heq2
      exact absurd (List.cons_eq_cons.mp heq2).1 hcne
    · exact List.noConfusion heq
  · rename_i d tail heq
    split at heq
    · rename_i r heq2
      exact absurd (List.cons_eq_cons.mp heq2).1 hcne
    · obtain ⟨rfl, rfl⟩ := List.cons_eq_cons.mp heq
      rw [if_pos (show c = '0' ∨ c.isDigit = true ∧ c ≠ '0' by
        by_cases h0 : c = '0'
        · exact Or.inl h0
        · exact Or.inr ⟨hc, h0⟩)]
      by_cases h0 : c = '0'
      · subst h0
        have hnil : cs = [] := by
          simp only [tameNum, Bool.or_eq_true, Bool.and_eq_true, decide_eq_true_eq] at h
          rcases h with ⟨_, hnil⟩ | ⟨⟨_, hne0⟩, _⟩
          · exact List.isEmpty_iff.mp hnil
          · exact absurd rfl hne0
        subst hnil
        rw [if_pos rfl]
        simp only [List.nil_append]
        have hnotdot : ¬(rest.head? = some '.') := by
          cases rest with
          | nil => simp
          | cons d r =>
            have := (hr d (by simp [List.take])).2.1
            simp [this]
        split
        · rename_i hand
          exact absurd hand.2 hnotdot
        · split
          · exact absurd rfl hnotdot
          · dsimp only
            split
            · rw [if_neg ?_]
              · simp
              · rintro (rfl | rfl)
                · exact (hr 'e' (by simp [List.take])).2.2.1 rfl
                · exact (hr 'E' (by simp [List.take])).2.2.2 rfl
            · simp
      · rw [if_neg h0]
        rw [span_digits cs rest hcs (fun d hd => (hr d hd).1)]
        dsimp only
        have hnotdot : ¬(rest.head? = some '.') := by
          cases rest with
          | nil => simp
          | cons d r =>
            have := (hr d (by simp [List.take])).2.1
            simp [this]
        split
        · rename_i hand
          exact absurd hand.2 hnotdot
        · split
          · exact absurd rfl hnotdot
          · dsimp only
            split
            · rw [if_neg ?_]
              · simp
              · rintro (rfl | rfl)
                · exact (hr 'e' (by simp [List.take])).2.2.1 rfl
                · exact (hr 'E' (by simp [List.take])).2.2.2 rfl
            · simp

mutual
/-- Fuel consumed by the parser on a value. -/
def mJson : Json → Nat
  | .null => 1
  | .jtrue => 1
  | .jfalse => 1
  | .num _ => 1
  | .str _ => 1
  | .arr xs => 1 + mList xs
  | .obj ms => 1 + mMembers ms
def mList : JsonList → Nat
  | .nil => 1
  | .cons h t => 1 + max (mJson h) (mList t)
def mMembers : JsonMembers → Nat
  | .nil => 1
  | .cons _ v t => 1 + max (mJson v) (mMembers t)
end

theorem mJson_pos (v : Json) : 1 ≤ mJson v := by
  cases v <;> simp only [mJson] <;> omega

theorem mList_pos (xs : JsonList) : 1 ≤ mList xs := by
  cases xs <;> simp only [mList] <;> omega

theorem mMembers_pos (ms : JsonMembers) : 1 ≤ mMembers ms := by
  cases ms <;> simp only [mMembers] <;> omega

theorem jsonWs_digit {c : Char} (h : c.isDigit = true) : jsonWs c = false := by
  simp only [Char.isDigit, Bool.and_eq_true, decide_eq_true_eq] at h
  simp only [jsonWs, Bool.or_eq_false_iff, decide_eq_false_iff_not]
  refine ⟨⟨⟨?_, ?_⟩, ?_⟩, ?_⟩ <;> rintro rfl <;> revert h <;> decide

/-- A tame rendering starts with a non-whitespace character that closes
nothing. -/
theorem renderJson_head (v : Json) (h : tameJson v = true) :
    ∃ c r, renderJson v = c :: r ∧ jsonWs c = false ∧ c ≠ ']' ∧ c ≠ rbrace := by
  cases v with
  | null => exact ⟨'n', _, rfl, by decide, by decide, by decide⟩
  | jtrue => exact ⟨'t', _, rfl, by decide, by decide, by decide⟩
  | jfalse => exact ⟨'f', _, rfl, by decide, by decide, by decide⟩
  | str s => exact ⟨'"', _, rfl, by decide, by decide, by decide⟩
  | arr xs => exact ⟨'[', _, rfl, by decide, by decide, by decide⟩
  | obj ms => exact ⟨lbrace, _, rfl, by decide, by decide, by decide⟩
  | num lex =>
    match lex, h with
    | c :: cs, h =>
      have hc : c.isDigit = true :=
        tameNum_digits (show tameNum (c :: cs) = true from h) c (List.mem_cons_self _ _)
      refine ⟨c, cs, rfl, jsonWs_digit hc, ?_, ?_⟩ <;>
        · rintro rfl
          exact absurd hc (by decide)

theorem skipJWs_render (v : Json) (h : tameJson v = true) (rest : Str) :
    skipJWs (renderJson v ++ rest) = renderJson v ++ rest := by
  obtain ⟨c, r, hcr, hws, _, _⟩ := renderJson_head v h
  rw [hcr, List.cons_append, skipJWs_cons_not c _ hws]

/-- The array accumulator of the parser, abstracted. -/
def pushAll (acc : JsonList) : JsonList → JsonList
  | .nil => acc
  | .cons h t => pushAll (acc.push h) t

def concatL : JsonList → JsonList → JsonList
  | .nil, ys => ys
  | .cons h t, ys => .cons h (concatL t ys)

theorem concatL_nil : ∀ xs : JsonList, concatL xs .nil = xs
  | .nil => rfl
  | .cons h t => by
    show JsonList.cons h (concatL t .nil) = .cons h t
    rw [concatL_nil t]

theorem concatL_push : ∀ (acc : JsonList) (x : Json) (t : JsonList),
    concatL (acc.push x) t = concatL acc (.cons x t)
  | .nil, x, t => rfl
  | .cons a b, x, t => by
    show JsonList.cons a (concatL (b.push x) t) = .cons a (concatL b (.cons x t))
    rw [concatL_push b x t]

theorem pushAll_concat : ∀ (xs acc : JsonList), pushAll acc xs = concatL acc xs
  | .nil, acc => (concatL_nil acc).symm
  | .cons h t, acc => by
    show pushAll (acc.push h) t = concatL acc (.cons h t)
    rw [pushAll_concat t (acc.push h), concatL_push]

theorem pushAll_nil (xs : JsonList) : pushAll .nil xs = xs := pushAll_concat xs .nil

/-- The object accumulator of the parser, abstracted. -/
def insertAll (acc : JsonMembers) : JsonMembers → JsonMembers
  | .nil => acc
  | .cons k v t => insertAll (acc.insert k v) t

def concatM : JsonMembers → JsonMembers → JsonMembers
  | .nil, ys => ys
  | .cons k v t, ys => .cons k v (concatM t ys)

theorem concatM_nil : ∀ ms : JsonMembers, concatM ms .nil = ms
  | .nil => rfl
  | .cons k v t => by
    show JsonMembers.cons k v (concatM t .nil) = .cons k v t
    rw [concatM_nil t]

theorem concatM_assoc : ∀ (a b c : JsonMembers),
    concatM (concatM a b) c = concatM a (concatM b c)
  | .nil, b, c => rfl
  | .cons k v t, b, c => by
    show JsonMembers.cons k v (concatM (concatM t b) c) = .cons k v (concatM t (concatM b c))
    rw [concatM_assoc t b c]

/-- Inserting a fresh key appends. -/
theorem insert_fresh : ∀ (acc : JsonMembers) (k : Str) (v : Json),
    (acc.get k).isNone = true →
    acc.insert k v = concatM acc (.cons k v .nil)
  | .nil, k, v, _ => rfl
  | .cons a w b, k, v, h => by
    by_cases hak : a = k
    · exfalso
      subst hak
      simp [JsonMembers.get] at h
    · have hb : (b.get k).isNone = true := by
        simp only [JsonMembers.get, if_neg hak] at h
        exact h
      show (if a = k then JsonMembers.cons a v b else .cons a w (b.insert k v)) =
        .cons a w (concatM b (.cons k v .nil))
      rw [if_neg hak, insert_fresh b k v hb]

theorem insertAll_fresh : ∀ (ms acc : JsonMembers),
    tameMembers ms = true →
    (∀ k2 : Str, (ms.get k2).isSome = true → (acc.get k2).isNone = true) →
    insertAll acc ms = concatM acc ms
  | .nil, acc, _, _ => (concatM_nil acc).symm
  | .cons k v t, acc, htame, hfresh => by
    simp only [tameMembers, Bool.and_eq_true] at htame
    have hkacc : (acc.get k).isNone = true := by
      apply hfresh
      simp [JsonMembers.get]
    have hstep : ∀ k2 : Str, (t.get k2).isSome = true →
        ((acc.insert k v).get k2).isNone = true := by
      intro k2 hk2
      have hne : k2 ≠ k := by
        rintro rfl
        have h2 := htame.2
        rw [Option.isNone_iff_eq_none] at h2
        rw [h2] at hk2
        exact Bool.noConfusion hk2
      rw [memGet_insert_other acc k k2 v hne]
      apply hfresh
      simp only [JsonMembers.get, if_neg (fun he : k = k2 => hne he.symm)]
      exact hk2
    show insertAll (acc.insert k v) t = concatM acc (.cons k v t)
    rw [insertAll_fresh t (acc.insert k v) htame.1.2 hstep]
    rw [insert_fresh acc k v hkacc]
    rw [concatM_assoc]
    rfl

theorem insertAll_nil (ms : JsonMembers) (h : tameMembers ms = true) :
    insertAll .nil ms = ms := by
  rw [insertAll_fresh ms .nil h (fun k2 _ => rfl)]
  rfl

theorem renderJson_len_pos (v : Json) (h : tameJson v = true) :
    1 ≤ (renderJson v).length := by
  cases v with
  | num lex =>
    match lex, h with
    | c :: cs, _ => simp [renderJson]
  | null => decide
  | jtrue => decide
  | jfalse => decide
  | str s => simp [renderJson]
  | arr xs => simp [renderJson]
  | obj ms => simp [renderJson]

theorem renderList_len_pos (h2 : Json) (t : JsonList) (h : tameJson h2 = true) :
    1 ≤ (renderList (.cons h2 t)).length := by
  have hp := renderJson_len_pos h2 h
  cases t <;>
    simp only [renderList, List.length_append, List.length_cons] <;>
    omega

mutual
theorem mJson_le : ∀ v : Json, tameJson v = true → mJson v ≤ (renderJson v).length
  | .null, _ => by decide
  | .jtrue, _ => by decide
  | .jfalse, _ => by decide
  | .num lex, h => by
    match lex, h with
    | c :: cs, _ => simp [mJson, renderJson]
  | .str s, _ => by simp [mJson, renderJson]
  | .arr xs, h => by
    have h1 := mList_le xs h
    simp only [mJson, renderJson, List.length_cons, List.length_append,
      List.length_nil] at h1 ⊢
    omega
  | .obj ms, h => by
    have h1 := mMembers_le ms h
    simp only [mJson, renderJson, List.length_cons, List.length_append,
      List.length_nil] at h1 ⊢
    omega
theorem mList_le : ∀ xs : JsonList, tameList xs = true →
    mList xs ≤ (renderList xs).length + 1
  | .nil, _ => by decide
  | .cons h0 .nil, h => by
    simp only [tameList, Bool.and_eq_true] at h
    have h1 := mJson_le h0 h.1
    have h2 := renderJson_len_pos h0 h.1
    simp only [mList, renderList]
    omega
  | .cons h0 (.cons h2 t), h => by
    simp only [tameList, Bool.and_eq_true] at h
    have h1 := mJson_le h0 h.1
    have hp := renderJson_len_pos h0 h.1
    have h3 : tameList (.cons h2 t) = true := by simp [tameList, h.2.1, h.2.2]
    have h4 := mList_le (.cons h2 t) h3
    have h5 := renderList_len_pos h2 t h.2.1
    simp only [mList, renderList, List.length_append, List.length_cons] at h4 h5 ⊢
    omega
theorem mMembers_le : ∀ ms : JsonMembers, tameMembers ms = true →
    mMembers ms ≤ (renderMembers ms).length + 1
  | .nil, _ => by decide
  | .cons k v .nil, h => by
    simp only [tameMembers, Bool.and_eq_true] at h
    have h1 := mJson_le v h.1.1.2
    have h2 := renderJson_len_pos v h.1.1.2
    simp only [mMembers, renderMembers, List.length_cons, List.length_append]
    omega
  | .cons k v (.cons k2 v2 t), h => by
    simp only [tameMembers, Bool.and_eq_true] at h
    have h1 := mJson_le v h.1.1.2
    have hp := renderJson_len_pos v h.1.1.2
    have h3 : tameMembers (.cons k2 v2 t) = true := by
      simp [tameMembers, h.1.2.1.1.1, h.1.2.1.1.2, h.1.2.1.2, h.1.2.2]
    have h4 := mMembers_le (.cons k2 v2 t) h3
    simp only [mMembers, renderMembers, List.length_append, List.length_cons] at h4 ⊢
    omega
end

theorem strStarts_head_false (t : Char) (p : Str) {c : Char} (h : ¬t = c) (s : Str) :
    strStarts (t :: p) (c :: s) = false := by
  simp [strStarts, h]

theorem skipJWs_renderList (xs : JsonList) (h : tameList xs = true) (rest : Str) :
    skipJWs (renderList xs ++ ']' :: rest) = renderList xs ++ ']' :: rest := by
  cases xs with
  | nil => exact skipJWs_cons_not ']' rest (by decide)
  | cons h0 t =>
    have h0t : tameJson h0 = true := by
      simp only [tameList, Bool.and_eq_true] at h
      exact h.1
    cases t with
    | nil => exact skipJWs_render h0 h0t _
    | cons h2 t2 =>
      show skipJWs ((renderJson h0 ++ ',' :: renderList (.cons h2 t2)) ++ ']' :: rest) =
        (renderJson h0 ++ ',' :: renderList (.cons h2 t2)) ++ ']' :: rest
      rw [List.append_assoc]
      exact skipJWs_render h0 h0t _

theorem skipJWs_renderMembers (ms : JsonMembers) (rest : Str) :
    skipJWs (renderMembers ms ++ rbrace :: rest) = renderMembers ms ++ rbrace :: rest := by
  cases ms with
  | nil => exact skipJWs_cons_not rbrace rest (by decide)
  | cons k v t =>
    cases t with
    | nil => exact skipJWs_cons_not '"' _ (by decide)
    | cons k2 v2 t2 => exact skipJWs_cons_not '"' _ (by decide)

mutual
/-- The parser round-trips a tame rendering. -/
theorem parseVal_render : ∀ (v : Json) (fuel : Nat) (rest : Str),
    tameJson v = true → mJson v ≤ fuel → sepOk rest = true →
    parseVal fuel (renderJson v ++ rest) = some (v, rest)
  | .null, fuel, rest, _, hm, _ => by
    match fuel, hm with
    | 0, hm => exact absurd hm (by decide)
    | f + 1, _ => rfl
  | .jtrue, fuel, rest, _, hm, _ => by
    match fuel, hm with
    | 0, hm => exact absurd hm (by decide)
    | f + 1, _ => rfl
  | .jfalse, fuel, rest, _, hm, _ => by
    match fuel, hm with
    | 0, hm => exact absurd hm (by decide)
    | f + 1, _ => rfl
  | .num lex, fuel, rest, h, hm, hsep => by
    match fuel, hm with
    | 0, hm => exact absurd hm (by simp [mJson])
    | f + 1, _ =>
      match lex, h with
      | c :: cs, h =>
        have hdig := tameNum_digits (show tameNum (c :: cs) = true from h)
        have hc := hdig c (List.mem_cons_self _ _)
        obtain ⟨hm1, hq, hlb, hbrk, ht, hf, hn⟩ := digit_ne_specials hc
        show parseVal (f + 1) (c :: (cs ++ rest)) = some (.num (c :: cs), rest)
        rw [parseVal.eq_def]
        dsimp only
        rw [if_neg (fun he => hq he), if_neg (fun he => hlb he), if_neg (fun he => hbrk he)]
        rw [show (lit "true") = 't' :: lit "rue" from rfl,
          strStarts_head_false 't' _ (fun he => ht he.symm)]
        rw [show (lit "false") = 'f' :: lit "alse" from rfl,
          strStarts_head_false 'f' _ (fun he => hf he.symm)]
        rw [show (lit "null") = 'n' :: lit "ull" from rfl,
          strStarts_head_false 'n' _ (fun he => hn he.symm)]
        simp only [Bool.false_eq_true, if_false]
        rw [show c :: (cs ++ rest) = (c :: cs) ++ rest from rfl]
        rw [parseNumLex_tame (c :: cs) rest h hsep]
        rfl
  | .str s, fuel, rest, h, hm, _ => by
    match fuel, hm with
    | 0, hm => exact absurd hm (by simp [mJson])
    | f + 1, _ =>
      show parseVal (f + 1) (('"' :: s ++ ['"']) ++ rest) = some (.str s, rest)
      have he : ('"' :: s ++ ['"']) ++ rest = '"' :: (s ++ '"' :: rest) := by simp
      rw [he, parseVal.eq_def]
      dsimp only
      rw [if_pos rfl]
      rw [parseStrBody_tame s rest (fun c hc => List.all_eq_true.mp h c hc)]
      rfl
  | .arr xs, fuel, rest, h, hm, hsep => by
    match fuel, hm with
    | 0, hm => exact absurd hm (by simp [mJson])
    | f + 1, hm =>
      have hmx : mList xs ≤ f := by
        have h2 : 1 + mList xs ≤ f + 1 := hm
        omega
      show parseVal (f + 1) (('[' :: renderList xs ++ [']']) ++ rest) = some (.arr xs, rest)
      have he : ('[' :: renderList xs ++ [']']) ++ rest =
          '[' :: (renderList xs ++ ']' :: rest) := by simp
      rw [he, parseVal.eq_def]
      dsimp only
      rw [if_neg (by decide), if_neg (by decide), if_pos rfl]
      rw [skipJWs_renderList xs h rest]
      rw [parseArrBody_render xs f rest true .nil h hmx (fun _ => rfl)]
      rw [pushAll_nil]
  | .obj ms, fuel, rest, h, hm, hsep => by
    match fuel, hm with
    | 0, hm => exact absurd hm (by simp [mJson])
    | f + 1, hm =>
      have hmx : mMembers ms ≤ f := by
        have h2 : 1 + mMembers ms ≤ f + 1 := hm
        omega
      show parseVal (f + 1) ((lbrace :: renderMembers ms ++ [rbrace]) ++ rest) =
        some (.obj ms, rest)
      have he : (lbrace :: renderMembers ms ++ [rbrace]) ++ rest =
          lbrace :: (renderMembers ms ++ rbrace :: rest) := by simp
      rw [he, parseVal.eq_def]
      dsimp only
      rw [if_neg (by decide), if_pos rfl]
      rw [skipJWs_renderMembers ms rest]
      rw [parseObjBody_render ms f rest true .nil h hmx (fun _ => rfl) (fun _ _ => rfl)]
      rw [insertAll_nil ms h]
theorem parseArrBody_render : ∀ (xs : JsonList) (fuel : Nat) (rest : Str)
    (first : Bool) (acc : JsonList),
    tameList xs = true → mList xs ≤ fuel → (xs = .nil → first = true) →
    parseArrBody fuel (renderList xs ++ ']' :: rest) first acc =
      some (.arr (pushAll acc xs), rest)
  | .nil, fuel, rest, first, acc, _, hm, hfirst => by
    match fuel, hm with
    | 0, hm => exact absurd hm (by decide)
    | f + 1, _ =>
      have hf : first = true := hfirst rfl
      subst hf
      show parseArrBody (f + 1) (']' :: rest) true acc = some (.arr (pushAll acc .nil), rest)
      rw [parseArrBody.eq_def]
      dsimp only
      rw [if_pos ⟨rfl, rfl⟩]
      rfl
  | .cons h0 t, fuel, rest, first, acc, h, hm, _ => by
    match fuel, hm with
    | 0, hm => exact absurd hm (by simp [mList])
    | f + 1, hm =>
      simp only [tameList, Bool.and_eq_true] at h
      have hmm : max (mJson h0) (mList t) ≤ f := by
        have h2 : 1 + max (mJson h0) (mList t) ≤ f + 1 := hm
        omega
      have hmh0 : mJson h0 ≤ f := le_trans (le_max_left _ _) hmm
      have hmt : mList t ≤ f := le_trans (le_max_right _ _) hmm
      obtain ⟨c, r, hcr, hws, hbr1, hbr2⟩ := renderJson_head h0 h.1
      cases t with
      | nil =>
        have hpv := parseVal_render h0 f (']' :: rest) h.1 hmh0 rfl
        rw [hcr, List.cons_append] at hpv
        show parseArrBody (f + 1) (renderJson h0 ++ ']' :: rest) first acc =
          some (.arr (acc.push h0), rest)
        rw [hcr, List.cons_append, parseArrBody.eq_def]
        dsimp only
        rw [if_neg (fun hand => hbr1 hand.1)]
        rw [hpv]
        dsimp only
        rw [skipJWs_cons_not ']' rest (by decide)]
        rfl
      | cons h2 t2 =>
        have htail : tameList (.cons h2 t2) = true := h.2
        have hpv := parseVal_render h0 f
          (',' :: (renderList (.cons h2 t2) ++ ']' :: rest)) h.1 hmh0 rfl
        rw [hcr, List.cons_append] at hpv
        show parseArrBody (f + 1)
          ((renderJson h0 ++ ',' :: renderList (.cons h2 t2)) ++ ']' :: rest) first acc =
          some (.arr (pushAll (acc.push h0) (.cons h2 t2)), rest)
        have he : (renderJson h0 ++ ',' :: renderList (.cons h2 t2)) ++ ']' :: rest =
            renderJson h0 ++ (',' :: (renderList (.cons h2 t2) ++ ']' :: rest)) := by
          simp
        rw [he, hcr, List.cons_append, parseArrBody.eq_def]
        dsimp only
        rw [if_neg (fun hand => hbr1 hand.1)]
        rw [hpv]
        dsimp only
        rw [skipJWs_cons_not ',' _ (by decide)]
        show parseArrBody f (skipJWs (renderList (.cons h2 t2) ++ ']' :: rest)) false
            (acc.push h0) =
          some (.arr (pushAll (acc.push h0) (.cons h2 t2)), rest)
        rw [skipJWs_renderList (.cons h2 t2) htail rest]
        exact parseArrBody_render (.cons h2 t2) f rest false (acc.push h0) htail hmt
          (fun hnil => JsonList.noConfusion hnil)
theorem parseObjBody_render : ∀ (ms : JsonMembers) (fuel : Nat) (rest : Str)
    (first : Bool) (acc : JsonMembers),
    tameMembers ms = true → mMembers ms ≤ fuel → (ms = .nil → first = true) →
    (∀ k2 : Str, (ms.get k2).isSome = true → (acc.get k2).isNone = true) →
    parseObjBody fuel (renderMembers ms ++ rbrace :: rest) first acc =
      some (.obj (insertAll acc ms), rest)
  | .nil, fuel, rest, first, acc, _, hm, hfirst, _ => by
    match fuel, hm with
    | 0, hm => exact absurd hm (by decide)
    | f + 1, _ =>
      have hf : first = true := hfirst rfl
      subst hf
      show parseObjBody (f + 1) (rbrace :: rest) true acc =
        some (.obj (insertAll acc .nil), rest)
      rw [parseObjBody.eq_def]
      dsimp only
      rw [if_pos ⟨rfl, rfl⟩]
      rfl
  | .cons k v t, fuel, rest, first, acc, h, hm, _, hfresh => by
    match fuel, hm with
    | 0, hm => exact absurd hm (by simp [mMembers])
    | f + 1, hm =>
      simp only [tameMembers, Bool.and_eq_true] at h
      have hmm : max (mJson v) (mMembers t) ≤ f := by
        have h2 : 1 + max (mJson v) (mMembers t) ≤ f + 1 := hm
        omega
      have hmv : mJson v ≤ f := le_trans (le_max_left _ _) hmm
      have hmt : mMembers t ≤ f := le_trans (le_max_right _ _) hmm
      have hkacc : (acc.get k).isNone = true := by
        apply hfresh
        simp [JsonMembers.get]
      have hktame : ∀ c ∈ k, tameStrChar c = true :=
        fun c hc => List.all_eq_true.mp h.1.1.1 c hc
      cases t with
      | nil =>
        have hpv := parseVal_render v f (rbrace :: rest) h.1.1.2 hmv rfl
        show parseObjBody (f + 1)
          (('"' :: k ++ '"' :: ':' :: renderJson v) ++ rbrace :: rest) first acc =
          some (.obj (acc.insert k v), rest)
        have he : ('"' :: k ++ '"' :: ':' :: renderJson v) ++ rbrace :: rest =
            '"' :: (k ++ '"' :: ':' :: (renderJson v ++ rbrace :: rest)) := by
          simp
        rw [he, parseObjBody.eq_def]
        dsimp only
        rw [if_neg (fun hand => absurd hand.1 (by decide)), if_pos rfl]
        rw [parseStrBody_tame k _ hktame]
        dsimp only
        rw [skipJWs_cons_not ':' _ (by decide)]
        show (match parseVal f (skipJWs (renderJson v ++ rbrace :: rest)) with
          | none => none
          | some (v1, cs3) =>
            let acc1 := acc.insert k v1
            match skipJWs cs3 with
            | ',' :: cs4 => parseObjBody f (skipJWs cs4) false acc1
            | d :: cs4 => if d = rbrace then some (.obj acc1, cs4) else none
            | [] => none) = some (.obj (acc.insert k v), rest)
        rw [skipJWs_render v h.1.1.2 _, hpv]
        dsimp only
        rw [skipJWs_cons_not rbrace _ (by decide)]
        rfl
      | cons k2 v2 t2 =>
        have htail : tameMembers (.cons k2 v2 t2) = true := h.1.2
        have hpv := parseVal_render v f
          (',' :: (renderMembers (.cons k2 v2 t2) ++ rbrace :: rest)) h.1.1.2 hmv rfl
        have hstep : ∀ k2a : Str, ((JsonMembers.cons k2 v2 t2).get k2a).isSome = true →
            ((acc.insert k v).get k2a).isNone = true := by
          intro k2a hk2
          have hne : k2a ≠ k := by
            rintro rfl
            have h2 := h.2
            rw [Option.isNone_iff_eq_none] at h2
            rw [h2] at hk2
            exact Bool.noConfusion hk2
          rw [memGet_insert_other acc k k2a v hne]
          apply hfresh
          simp only [JsonMembers.get, if_neg (fun heq : k = k2a => hne heq.symm)]
          exact hk2
        show parseObjBody (f + 1)
          (('"' :: k ++ '"' :: ':' :: renderJson v ++ ',' ::
            renderMembers (.cons k2 v2 t2)) ++ rbrace :: rest) first acc =
          some (.obj (insertAll (acc.insert k v) (.cons k2 v2 t2)), rest)
        have he : ('"' :: k ++ '"' :: ':' :: renderJson v ++ ',' ::
            renderMembers (.cons k2 v2 t2)) ++ rbrace :: rest =
            '"' :: (k ++ '"' :: ':' :: (renderJson v ++
              (',' :: (renderMembers (.cons k2 v2 t2) ++ rbrace :: rest)))) := by
          simp
        rw [he, parseObjBody.eq_def]
        dsimp only
        rw [if_neg (fun hand => absurd hand.1 (by decide)), if_pos rfl]
        rw [parseStrBody_tame k _ hktame]
        dsimp only
        rw [skipJWs_cons_not ':' _ (by decide)]
        show (match parseVal f (skipJWs (renderJson v ++
            (',' :: (renderMembers (.cons k2 v2 t2) ++ rbrace :: rest)))) with
          | none => none
          | some (v1, cs3) =>
            let acc1 := acc.insert k v1
            match skipJWs cs3 with
            | ',' :: cs4 => parseObjBody f (skipJWs cs4) false acc1
            | d :: cs4 => if d = rbrace then some (.obj acc1, cs4) else none
            | [] => none) =
          some (.obj (insertAll (acc.insert k v) (.cons k2 v2 t2)), rest)
        rw [skipJWs_render v h.1.1.2 _, hpv]
        dsimp only
        rw [skipJWs_cons_not ',' _ (by decide)]
        show parseObjBody f (skipJWs (renderMembers (.cons k2 v2 t2) ++ rbrace :: rest)) false
          (acc.insert k v) = some (.obj (insertAll (acc.insert k v) (.cons k2 v2 t2)), rest)
        rw [skipJWs_renderMembers (.cons k2 v2 t2) rest]
        exact parseObjBody_render (.cons k2 v2 t2) f rest false (acc.insert k v) htail hmt
          (fun hnil => JsonMembers.noConfusion hnil) hstep
end

theorem jsonLoads_render (ms : JsonMembers) (h : tameMembers ms = true) :
    jsonLoads (renderJson (.obj ms)) = some (.obj ms) := by
  have htame : tameJson (.obj ms) = true := h
  have hle : mJson (.obj ms) ≤ (renderJson (.obj ms)).length + 1 :=
    le_trans (mJson_le _ htame) (Nat.le_succ _)
  have hpv := parseVal_render (.obj ms) ((renderJson (.obj ms)).length + 1) [] htame hle rfl
  rw [List.append_nil] at hpv
  unfold jsonLoads
  rw [show skipJWs (renderJson (.obj ms)) = renderJson (.obj ms) from
    skipJWs_cons_not lbrace _ (by decide)]
  rw [hpv]
  rfl

/-- C6 (amended): for surrounding text that is free of backticks (and of
braces before the object) and does not begin or end in whitespace at the
wrong spot, and for an embedded object in the tame fragment — keys and
string values made of printable characters other than quote, backslash,
braces, backtick and slash, numbers plain decimal integers, keys distinct
— the extractor isolates exactly the rendered object and a strict JSON
parser accepts it.  (The unamended claim is refuted by
`claim_C6_counterexample`: the brace-balancing scan does not honor string
boundaries.) -/
theorem claim_C6_amended (pre suf : Str) (ms : JsonMembers)
    (htame : tameMembers ms = true)
    (hpre : ∀ c ∈ pre, c ≠ '\x60' ∧ c ≠ lbrace)
    (hpreh : isPySpace (pre.headD lbrace) = false)
    (hsuf : ∀ c ∈ suf, c ≠ '\x60')
    (hsufl : isPySpace (suf.getLastD rbrace) = false) :
    extract_json_from_text (pre ++ renderJson (.obj ms) ++ suf) =
      .ok (renderJson (.obj ms)) ∧
    jsonLoads (renderJson (.obj ms)) = some (.obj ms) :=
  ⟨extract_render pre suf ms htame hpre hpreh hsuf hsufl, jsonLoads_render ms htame⟩

theorem claim_C6_amended_witness :
    extract_json_from_text (lit "text before " ++
        renderJson (.obj (.cons (lit "a") (.str (lit "x")) .nil)) ++ lit " after") =
      .ok (renderJson (.obj (.cons (lit "a") (.str (lit "x")) .nil))) ∧
    jsonLoads (renderJson (.obj (.cons (lit "a") (.str (lit "x")) .nil))) =
      some (.obj (.cons (lit "a") (.str (lit "x")) .nil)) :=
  claim_C6_amended (lit "text before ") (lit " after")
    (.cons (lit "a") (.str (lit "x")) .nil) (by decide)
    (by decide) (by decide) (by decide) (by decide)

end ProjectChat
